import Mathlib

/-!
Verification of the pagination / table-split engine of the
tiptap-extension-pagination repository against its specification.

The development shallowly embeds the relevant TypeScript sources:
- `src/utils/pagination.ts` (content collection, page packing, cursor maps),
- `src/utils/table.ts` (table measurement, splitting, optimisation),
- `src/PaginationExtension.ts` (Backspace / Delete keymap handlers).

Node trees follow the ProseMirror document model: a text node has size
equal to its text length, and every other node occupies its content size
plus two token slots (one for opening, one for closing).  Pixel heights are
embedded as integers.
-/

namespace TiptapPagination

/-- Attributes carried by a node.  Only the fields that the embedded code
actually reads are modelled: the resolved content height and an identity
tag for page attributes, and the headerRows / groupId attributes of
tables. -/
structure Attrs where
  contentHeight : Int := 0
  attrId : Nat := 0
  headerRows : Option Nat := none
  groupId : Option Nat := none
deriving DecidableEq, Repr

/-- ProseMirror document node: either a text leaf or a named node with
attributes and ordered children. -/
inductive PMNode where
  | text (s : String)
  | node (name : String) (attrs : Attrs) (content : List PMNode)

mutual

/-- Decidable equality on nodes, written by hand because deriving is
unavailable for the nested inductive. -/
def pmDecEq : (a b : PMNode) → Decidable (a = b)
  | PMNode.text s, PMNode.text t =>
    match String.decEq s t with
    | isTrue h => isTrue (by rw [h])
    | isFalse h => isFalse (by intro hEq; cases hEq; exact h rfl)
  | PMNode.text _, PMNode.node .. => isFalse (by intro hEq; exact PMNode.noConfusion hEq)
  | PMNode.node .., PMNode.text _ => isFalse (by intro hEq; exact PMNode.noConfusion hEq)
  | PMNode.node n a cs, PMNode.node m b ds =>
    match String.decEq n m, instDecidableEqAttrs a b, pmDecEqList cs ds with
    | isTrue h1, isTrue h2, isTrue h3 => isTrue (by rw [h1, h2, h3])
    | isFalse h1, _, _ => isFalse (by intro hEq; cases hEq; exact h1 rfl)
    | _, isFalse h2, _ => isFalse (by intro hEq; cases hEq; exact h2 rfl)
    | _, _, isFalse h3 => isFalse (by intro hEq; cases hEq; exact h3 rfl)

/-- Decidable equality on node lists. -/
def pmDecEqList : (as bs : List PMNode) → Decidable (as = bs)
  | [], [] => isTrue rfl
  | [], _ :: _ => isFalse (by intro hEq; exact List.noConfusion hEq)
  | _ :: _, [] => isFalse (by intro hEq; exact List.noConfusion hEq)
  | c :: cs, d :: ds =>
    match pmDecEq c d, pmDecEqList cs ds with
    | isTrue h1, isTrue h2 => isTrue (by rw [h1, h2])
    | isFalse h1, _ => isFalse (by intro hEq; cases hEq; exact h1 rfl)
    | _, isFalse h2 => isFalse (by intro hEq; cases hEq; exact h2 rfl)

end

instance : DecidableEq PMNode := pmDecEq

mutual

/-- Size of a node in the linear token address space: text length for text
nodes, content size plus two for every other node. -/
def nodeSize : PMNode → Nat
  | PMNode.text s => s.length
  | PMNode.node _ _ cs => 2 + contentSize cs

/-- Total size of an ordered child list. -/
def contentSize : List PMNode → Nat
  | [] => 0
  | c :: cs => nodeSize c + contentSize cs

end

/-- Name of a node type; text nodes have the type name "text". -/
def nameOf : PMNode → String
  | PMNode.text _ => "text"
  | PMNode.node n _ _ => n

/-- Attributes of a node (text nodes carry defaults). -/
def attrsOf : PMNode → Attrs
  | PMNode.text _ => {}
  | PMNode.node _ a _ => a

/-- Children of a node (empty for text nodes). -/
def childrenOf : PMNode → List PMNode
  | PMNode.text _ => []
  | PMNode.node _ _ cs => cs

/-- Check for a text node. -/
def isTextN : PMNode → Bool
  | PMNode.text _ => true
  | PMNode.node _ _ _ => false

/-! ## Content collection (`collectContentNodes`, pagination.ts lines 594-610)

The collector walks the top level of the document; a page child is
unwrapped one level (children pushed at `offset + childOffset + 1`), any
other top-level node is pushed at `offset + 1`. -/

/-- Entries for the children of one page node, starting at the given
absolute base position; mirrors the inner `node.forEach` whose pushed
position is `offset + childOffset + 1`. -/
def pageChildEntries : List PMNode → Nat → List (PMNode × Nat)
  | [], _ => []
  | k :: ks, p => (k, p) :: pageChildEntries ks (p + nodeSize k)

/-- Walk over the top-level children with their running offset; mirrors the
outer `state.doc.forEach` of `collectContentNodes`. -/
def collectTop : List PMNode → Nat → List (PMNode × Nat)
  | [], _ => []
  | c :: cs, off =>
    (if nameOf c = "page" then pageChildEntries (childrenOf c) (off + 1)
     else [(c, off + 1)]) ++ collectTop cs (off + nodeSize c)

/-- Shallow embedding of `collectContentNodes` (pagination.ts lines
594-610). -/
def collectContentNodes (doc : PMNode) : List (PMNode × Nat) :=
  collectTop (childrenOf doc) 0

/-! ## Page packing (`buildNewDocument`, pagination.ts lines 647-710)

The budget resolver models `getCalculatedPageNodeAttributes`: a function
from the page number to the page attributes, whose pixel dimensions are a
pure function (`budgetOf`) of those attributes.  `pageCount` is the number
of page nodes of the pre-pass document, used by the `isPageNumInRange`
guard. -/

/-- Mutable loop state of `buildNewDocument`. -/
structure BuildSt where
  pages : List (Attrs × List PMNode)
  cur : List PMNode
  curH : Int
  pageNum : Nat
  attrs : Attrs
  cum : Nat
  posMap : List (Nat × Nat)
deriving DecidableEq

/-- Insert-or-overwrite on an association list, mirroring `Map.set` of a
JavaScript `Map` (existing keys keep their place). -/
def setAssoc : List (Nat × Nat) → Nat → Nat → List (Nat × Nat)
  | [], k, v => [(k, v)]
  | (a, b) :: t, k, v => if a = k then (a, v) :: t else (a, b) :: setAssoc t k v

/-- Lookup on an association list, mirroring `Map.get`. -/
def lookupAssoc : List (Nat × Nat) → Nat → Option Nat
  | [], _ => none
  | (a, b) :: t, k => if a = k then some b else lookupAssoc t k

/-- One iteration of the `for` loop of `buildNewDocument`: close the page
when the entry does not fit and the page is non-empty (re-resolving the
attributes when the next page number is in range of the old document),
account one slot when a page opens, record the cursor-map entry, append
the node and add `max(nodeHeight, MIN_PARAGRAPH_HEIGHT)` to the running
height. -/
def buildStep (budgetOf : Attrs → Int) (resolver : Nat → Attrs) (pageCount : Nat)
    (minH : Int) (st : BuildSt) (e : (PMNode × Nat) × Int) : BuildSt :=
  let nd := e.1.1
  let oldPos := e.1.2
  let h := e.2
  let st1 :=
    if budgetOf st.attrs < st.curH + h ∧ st.cur ≠ [] then
      let newPageNum := st.pageNum + 1
      { st with
        pages := st.pages ++ [(st.attrs, st.cur)]
        cum := st.cum + (2 + contentSize st.cur)
        cur := []
        curH := 0
        pageNum := newPageNum
        attrs := if newPageNum < pageCount then resolver newPageNum else st.attrs }
    else st
  let st2 := if st1.cur = [] then { st1 with cum := st1.cum + 1 } else st1
  let s := st2.cum + contentSize st2.cur
  { st2 with
    posMap := setAssoc st2.posMap oldPos s
    cur := st2.cur ++ [nd]
    curH := st2.curH + max h minH }

/-- Initial loop state: attributes resolved for page 0. -/
def initSt (resolver : Nat → Attrs) : BuildSt :=
  { pages := [], cur := [], curH := 0, pageNum := 0, attrs := resolver 0, cum := 0, posMap := [] }

/-- Folding the loop body over the zipped entry / height list. -/
def buildRun (budgetOf : Attrs → Int) (resolver : Nat → Attrs) (pageCount : Nat)
    (minH : Int) (l : List ((PMNode × Nat) × Int)) (st : BuildSt) : BuildSt :=
  l.foldl (buildStep budgetOf resolver pageCount minH) st

/-- Appending the final (possibly partial) page when the current content is
non-empty, as done after the loop of `buildNewDocument`. -/
def finishPages (st : BuildSt) : List (Attrs × List PMNode) :=
  if st.cur = [] then st.pages else st.pages ++ [(st.attrs, st.cur)]

/-- Shallow embedding of `limitMappedCursorPositions` (pagination.ts lines
719-725): every stored value larger than the document size is replaced by
the document size. -/
def limitMappedCursorPositions (m : List (Nat × Nat)) (docSize : Nat) : List (Nat × Nat) :=
  m.map (fun p => if docSize < p.2 then (p.1, docSize) else p)

/-- Page node created by `addPage`. -/
def mkPageNode (p : Attrs × List PMNode) : PMNode :=
  PMNode.node "page" p.1 p.2

/-- Result of `buildNewDocument`: the produced pages, the rebuilt document,
its content size and the clamped old-to-new position map. -/
structure BuildResult where
  pages : List (Attrs × List PMNode)
  newDoc : PMNode
  docSize : Nat
  posMap : List (Nat × Nat)
deriving DecidableEq

/-- Shallow embedding of `buildNewDocument` (pagination.ts lines 647-710). -/
def buildNewDocument (budgetOf : Attrs → Int) (resolver : Nat → Attrs) (pageCount : Nat)
    (minH : Int) (entries : List (PMNode × Nat)) (heights : List Int) : BuildResult :=
  let st := buildRun budgetOf resolver pageCount minH (entries.zip heights) (initSt resolver)
  let pages := finishPages st
  let docSize := contentSize (pages.map mkPageNode)
  { pages := pages
    newDoc := PMNode.node "doc" {} (pages.map mkPageNode)
    docSize := docSize
    posMap := limitMappedCursorPositions st.posMap docSize }

/-- Shallow embedding of `mapCursorPosition` (pagination.ts lines 734-756):
find the first entry whose old range contains the cursor, compute the
offset relative to the text start (`oldNodePos + 1`) and add it to the
mapped new position; a missing map entry yields position 0. -/
def mapCursorPosition (entries : List (PMNode × Nat)) (oldCursorPos : Nat)
    (posMap : List (Nat × Nat)) : Option Int :=
  match entries.find? (fun e => decide (e.2 ≤ oldCursorPos ∧ oldCursorPos ≤ e.2 + nodeSize e.1)) with
  | none => none
  | some e =>
    match lookupAssoc posMap e.2 with
    | none => some 0
    | some np => some ((np : Int) + ((oldCursorPos : Int) - ((e.2 : Int) + 1)))

/-! ## Table measurement and splitting (`src/utils/table.ts`)

Two near-identical `TableHandler` variants exist in the source (lines
100-228 and 496-609); they differ only in the default of
`getHeaderRowCount` (`attrs.headerRows || 1` versus `attrs.headerRows ||
0`), so the splitter is embedded once, parameterised by the header-count
resolver.  Recursion is embedded with explicit fuel: a `none` result
models non-termination of the source recursion.  The fresh
`table-group-${Date.now()}` identity is modelled by a numeric `gid`
parameter (the recursive call receives a distinct one). -/

/-- Table measurement record (`TableMeasurement`, types/table.ts). -/
structure TableMeasurement where
  rowHeights : List Int
  headerRowCount : Nat
  totalHeight : Int
  breakPoints : List Int
  cumulativeHeights : List Int
deriving DecidableEq, Repr

/-- Cumulative heights as computed by the `reduce` of `measureTable`:
each element is the previous accumulated value (or 0 for the first) plus
the row height. -/
def cumulativeOf (hs : List Int) : List Int :=
  hs.foldl (fun acc h => acc ++ [(acc.getLast?).getD 0 + h]) []

/-- Pure core of `measureTable` (table.ts lines 426-455): given the row
heights returned by the external DOM measurer and the header-row count,
compute the cumulative heights and the total (last cumulative value, or 0
when empty).  The cache layer is omitted: it returns a previously computed
measurement unchanged. -/
def measureTableCore (rowHeights : List Int) (headerRowCount : Nat) : TableMeasurement :=
  let cum := cumulativeOf rowHeights
  { rowHeights := rowHeights
    headerRowCount := headerRowCount
    totalHeight := (cum.getLast?).getD 0
    breakPoints := []
    cumulativeHeights := cum }

/-- Header-row count of the first `TableHandler` variant (table.ts line
96-98): `node.attrs.headerRows || 1`, so an absent or zero attribute
yields 1. -/
def headerRowCountV1 (t : PMNode) : Nat :=
  match (attrsOf t).headerRows with
  | none => 1
  | some n => if n = 0 then 1 else n

/-- Header-row count of the second `TableHandler` variant (table.ts lines
483-485): `node.attrs.headerRows || 0`. -/
def headerRowCountV2 (t : PMNode) : Nat :=
  ((attrsOf t).headerRows).getD 0

/-- Result record of `splitTableAtHeight` (`TableSplitResult`). -/
structure TableSplitResult where
  tables : List PMNode
  mapping : List (Nat × Nat)
  groupId : Nat
  measurements : List TableMeasurement
deriving DecidableEq

/-- Creation of a table node with the original attributes plus the fresh
group identity, mirroring `schema.nodes.table.create({...attrs, groupId},
rows)`. -/
def mkTable (a : Attrs) (gid : Nat) (rows : List PMNode) : PMNode :=
  PMNode.node "table" { a with groupId := some gid } rows

/-- Number of rows after the header block accepted by the split-point scan
of `splitTableAtHeight`: rows are taken while the accumulated height stays
within the available height, and the scan stops at the first row that
would exceed it. -/
def acceptCount (avail : Int) : Int → List Int → Nat
  | _, [] => 0
  | cur, h :: t => if avail < cur + h then 0 else 1 + acceptCount avail (cur + h) t

/-- Split index computed by the scan of `splitTableAtHeight`: it starts at
the header-row count (whose heights are pre-accumulated) and advances past
every row that still fits. -/
def findSplitIndex (hdr : Nat) (hs : List Int) (avail : Int) : Nat :=
  hdr + acceptCount avail (hs.take hdr).sum (hs.drop hdr)

/-- Shallow embedding of `splitTableAtHeight` (table.ts lines 496-609 and
the identical first variant at lines 100-228), parameterised by the
header-count resolver.  Fuel bounds the recursion depth; `none` models a
non-terminating run of the source. -/
def splitTableAtHeight (hdrOf : PMNode → Nat) :
    Nat → Nat → PMNode → Int → TableMeasurement → Int → Option TableSplitResult
  | 0, _, _, _, _, _ => none
  | fuel + 1, gid, tableNode, availableHeight, m, pageHeight =>
    let rows := childrenOf tableNode
    if m.totalHeight ≤ availableHeight then
      some { tables := [mkTable (attrsOf tableNode) gid rows]
             mapping := []
             groupId := gid
             measurements := [m] }
    else
      let hdr := hdrOf tableNode
      let k := findSplitIndex hdr m.rowHeights availableHeight
      let currentHeight := (m.rowHeights.take k).sum
      let firstTable := mkTable (attrsOf tableNode) gid (rows.take k)
      let meas1 : TableMeasurement :=
        { rowHeights := m.rowHeights.take k
          headerRowCount := 0
          totalHeight := (m.rowHeights.take k).sum
          breakPoints := []
          cumulativeHeights := m.cumulativeHeights.take k }
      if k < rows.length then
        let remTable := mkTable (attrsOf tableNode) gid (rows.drop k)
        let remMeas : TableMeasurement :=
          { m with
            rowHeights := m.rowHeights.drop k
            cumulativeHeights := (m.cumulativeHeights.drop k).map (fun h => h - currentHeight)
            totalHeight := (m.rowHeights.drop k).sum }
        if pageHeight < remMeas.totalHeight then
          match splitTableAtHeight hdrOf fuel (gid + 1) remTable pageHeight remMeas pageHeight with
          | none => none
          | some res =>
            some { tables := firstTable :: res.tables
                   mapping := res.mapping.map (fun pr => (pr.1 + k, pr.2 + nodeSize firstTable))
                   groupId := gid
                   measurements := meas1 :: res.measurements }
        else
          some { tables := [firstTable, remTable]
                 mapping := []
                 groupId := gid
                 measurements := [meas1, remMeas] }
      else
        some { tables := [firstTable]
               mapping := []
               groupId := gid
               measurements := [meas1] }

/-! ## Table group optimisation (`optimiseTables`, table.ts lines 620-732)

The source mutates the `tables` / `measurements` arrays in place while
`forEach` iterates over them; the embedding threads both lists through an
index-driven loop with `List.set` for the in-place element updates. -/

/-- Measurement used where the source would read `undefined` past the end
of the measurements array. -/
def dfltMeas : TableMeasurement :=
  { rowHeights := [], headerRowCount := 0, totalHeight := 0, breakPoints := [], cumulativeHeights := [] }

/-- Node used where the source would read `undefined` past the end of the
tables array. -/
def dfltTable : PMNode :=
  PMNode.node "table" {} []

/-- Backward scan of the overflow branch: starting from the last row,
rows are moved (and their heights accumulated) until the remaining table
height fits the available space; returns the number of moved rows and the
accumulated height. -/
def ovMovedLen (tableH avail : Int) (hs : List Int) : Nat → Int → Nat × Int
  | 0, taken => (0, taken)
  | i + 1, taken =>
    if tableH - taken ≤ avail then (0, taken)
    else
      let out := ovMovedLen tableH avail hs i (taken + hs.getD i 0)
      (out.1 + 1, out.2)

/-- Heights at the index range `[a, b)` of a list, reading missing indices
as 0 (JavaScript index access past the end). -/
def sliceIdx (hs : List Int) (a b : Nat) : List Int :=
  ((List.range b).drop a).map (fun j => hs.getD j 0)

/-- Drop of the last `k` elements, mirroring `slice(0, -k)`. -/
def negSlice (l : List Int) (k : Nat) : List Int :=
  l.take (l.length - k)

/-- Forward scan of the underflow branch: rows of the next fragment are
pulled while the spare height strictly exceeds the candidate row height;
returns the number of pulled rows and the accumulated height. -/
def unMovedGo (availH : Int) (hs : List Int) : Nat → Nat → Int → Nat × Int
  | 0, _, taken => (0, taken)
  | f + 1, i, taken =>
    let rh := hs.getD i 0
    if availH - taken ≤ rh then (0, taken)
    else
      let out := unMovedGo availH hs f (i + 1) (taken + rh)
      (out.1 + 1, out.2)

/-- Entry point of the underflow scan over `n` candidate rows. -/
def unMoved (availH : Int) (hs : List Int) (n : Nat) : Nat × Int :=
  unMovedGo availH hs n 0 0

/-- One `forEach` iteration of `optimiseTables` at index `i`: overflow
moves a trailing run of rows into the next fragment (creating one when
none exists), underflow pulls a leading run from the next fragment; when
neither applies the fragment and its measurement pass through unchanged.
Returns the updated table / measurement arrays and output lists. -/
def optStep (availableHeight pageHeight : Int) (i : Nat)
    (tabs : List PMNode) (meas : List TableMeasurement)
    (optT : List PMNode) (optM : List TableMeasurement) :
    List PMNode × List TableMeasurement × List PMNode × List TableMeasurement :=
  let table := tabs.getD i dfltTable
  let measurement := meas.getD i dfltMeas
  let availableSpace := if i = 0 then availableHeight else pageHeight
  let tableHeight := measurement.totalHeight
  let ovOut :=
    if availableSpace < measurement.totalHeight then
      let rows := childrenOf table
      let nR := rows.length
      let km := ovMovedLen tableHeight availableSpace measurement.rowHeights nR 0
      let k := km.1
      let taken := km.2
      if k ≠ 0 then
        let movedRows := rows.drop (nR - k)
        let movedHs := sliceIdx measurement.rowHeights (nR - k) nR
        let optT1 := optT ++ [PMNode.node "table" (attrsOf table) (rows.take (nR - k))]
        let optM1 := optM ++
          [{ rowHeights := negSlice measurement.rowHeights k
             headerRowCount := 0
             totalHeight := measurement.totalHeight - taken
             breakPoints := measurement.breakPoints
             cumulativeHeights := negSlice measurement.cumulativeHeights k }]
        if i + 1 < tabs.length then
          let nextTable := tabs.getD (i + 1) dfltTable
          let nm := meas.getD (i + 1) dfltMeas
          let tabs1 := tabs.set (i + 1)
            (PMNode.node "table" (attrsOf nextTable) (movedRows ++ childrenOf nextTable))
          let meas1 := meas.set (i + 1)
            { nm with rowHeights := movedHs ++ nm.rowHeights, totalHeight := nm.totalHeight + taken }
          (tabs1, meas1, optT1, optM1, true)
        else
          let optT2 := optT1 ++ [PMNode.node "table" (attrsOf table) movedRows]
          let optM2 := optM1 ++ [{ measurement with rowHeights := movedHs, totalHeight := movedHs.sum }]
          (tabs, meas, optT2, optM2, true)
      else (tabs, meas, optT, optM, false)
    else (tabs, meas, optT, optM, false)
  let tabsA := ovOut.1
  let measA := ovOut.2.1
  let optTA := ovOut.2.2.1
  let optMA := ovOut.2.2.2.1
  let ovDone := ovOut.2.2.2.2
  let unOut :=
    if measurement.totalHeight < availableSpace ∧ i + 1 < tabsA.length then
      let spare := availableSpace - measurement.totalHeight
      let nextTable := tabsA.getD (i + 1) dfltTable
      let nm := measA.getD (i + 1) dfltMeas
      let nextRows := childrenOf nextTable
      let km := unMoved spare nm.rowHeights nextRows.length
      let k := km.1
      let taken := km.2
      if k ≠ 0 then
        let movedRows := nextRows.take k
        let optT1 := optTA ++ [PMNode.node "table" (attrsOf table) (childrenOf table ++ movedRows)]
        let optM1 := optMA ++
          [{ nm with
             totalHeight := measurement.totalHeight + taken
             rowHeights := measurement.rowHeights.take k
             cumulativeHeights := measurement.cumulativeHeights ++ nm.cumulativeHeights.take k }]
        let tabs1 := tabsA.set (i + 1) (PMNode.node "table" (attrsOf nextTable) (nextRows.drop k))
        let meas1 := measA.set (i + 1)
          { nm with
            rowHeights := nm.rowHeights.drop k
            cumulativeHeights := nm.cumulativeHeights.drop k
            totalHeight := nm.totalHeight - taken }
        (tabs1, meas1, optT1, optM1, true)
      else (tabsA, measA, optTA, optMA, false)
    else (tabsA, measA, optTA, optMA, false)
  let tabsB := unOut.1
  let measB := unOut.2.1
  let optTB := unOut.2.2.1
  let optMB := unOut.2.2.2.1
  let unDone := unOut.2.2.2.2
  if ovDone ∨ unDone then (tabsB, measB, optTB, optMB)
  else (tabsB, measB, optTB ++ [table], optMB ++ [measurement])

/-- Iteration of `optStep` over the indices `[i, i + fuel)`. -/
def optimiseLoop (availableHeight pageHeight : Int) :
    Nat → Nat → List PMNode → List TableMeasurement → List PMNode → List TableMeasurement →
    List PMNode × List TableMeasurement
  | 0, _, _, _, optT, optM => (optT, optM)
  | f + 1, i, tabs, meas, optT, optM =>
    let r := optStep availableHeight pageHeight i tabs meas optT optM
    optimiseLoop availableHeight pageHeight f (i + 1) r.1 r.2.1 r.2.2.1 r.2.2.2

/-- Shallow embedding of `optimiseTables` (table.ts lines 620-732): the
`forEach` visits every original index once. -/
def optimiseTables (tabs : List PMNode) (meas : List TableMeasurement)
    (availableHeight pageHeight : Int) : List PMNode × List TableMeasurement :=
  optimiseLoop availableHeight pageHeight tabs.length 0 tabs meas [] []

/-- Inclusive prefix sums of a height list, written from the invariant of
the specification: `cumulativeHeights[i] == sum(rowHeights[0..=i])`. -/
def inclusiveSums (hs : List Int) : List Int :=
  (List.range hs.length).map (fun i => (hs.take (i + 1)).sum)

/-- Measurement invariant claimed by the specification:
`cumulativeHeights[i] == sum(rowHeights[0..=i])` for every index, and
`totalHeight == cumulativeHeights[last]` (or 0 when empty). -/
def measInvariant (m : TableMeasurement) : Prop :=
  m.cumulativeHeights = inclusiveSums m.rowHeights ∧
    m.totalHeight = (m.cumulativeHeights.getLast?).getD 0

instance (m : TableMeasurement) : Decidable (measInvariant m) :=
  inferInstanceAs (Decidable (And _ _))

/-! ## Position primitives of the document model

`nodeAt`, `childBefore`, `childAfter` and position resolution are document
/ position primitives of the external ProseMirror collaborator; they are
implemented here over the embedded node type with the documented
ProseMirror semantics so the keymap handlers can be evaluated. -/

mutual

/-- ProseMirror `Node.nodeAt`: descend towards the node after the given
content position, returning a child whose start equals the position (or a
text node containing it). -/
def nodeAtNode : PMNode → Nat → Option PMNode
  | PMNode.text _, _ => none
  | PMNode.node _ _ cs, pos => nodeAtList cs pos

/-- Descent step of `nodeAt` over a child list. -/
def nodeAtList : List PMNode → Nat → Option PMNode
  | [], _ => none
  | c :: cs, pos =>
    if pos < nodeSize c then
      if pos = 0 ∨ isTextN c then some c
      else nodeAtNode c (pos - 1)
    else nodeAtList cs (pos - nodeSize c)

end

mutual

/-- Parent node of a resolved position (the deepest non-text node whose
content contains the position), as produced by `doc.resolve(pos).parent`. -/
def parentAtNode : PMNode → Nat → PMNode
  | PMNode.text s, _ => PMNode.text s
  | PMNode.node n a cs, pos => parentAtList (PMNode.node n a cs) cs pos

/-- Descent step of the parent computation over a child list: a position
strictly inside a non-text child resolves inside it, a boundary position
resolves in the current node. -/
def parentAtList (self : PMNode) : List PMNode → Nat → PMNode
  | [], _ => self
  | c :: cs, pos =>
    if pos = 0 then self
    else if pos < nodeSize c then
      match c with
      | PMNode.text _ => self
      | PMNode.node n a kids => parentAtList (PMNode.node n a kids) kids (pos - 1)
    else parentAtList self cs (pos - nodeSize c)

end

mutual

/-- Search inside one node for the deepest ancestor of the given type name
strictly containing the position; `base` is the absolute position where
this node content starts. -/
def ancestorInNode (name : String) : PMNode → Nat → Nat → Option Nat
  | PMNode.text _, _, _ => none
  | PMNode.node _ _ cs, base, pos => ancestorInList name cs base pos

/-- Search over a child list for the deepest ancestor of the given type
name; a child spanning `[base, base + size)` contains the position when
it lies strictly inside. -/
def ancestorInList (name : String) : List PMNode → Nat → Nat → Option Nat
  | [], _, _ => none
  | c :: cs, base, pos =>
    if base < pos ∧ pos < base + nodeSize c then
      match ancestorInNode name c (base + 1) pos with
      | some q => some q
      | none => if nameOf c = name then some base else none
    else ancestorInList name cs (base + nodeSize c) pos

end

/-- Modelled from the spec: `getParentNodePosOfType` (utils/node.ts is not
under src/) resolves a position to its ancestor chain and returns the
position of the nearest ancestor node of the given type. -/
def ancestorPosOfType (doc : PMNode) (pos : Nat) (name : String) : Option Nat :=
  ancestorInList name (childrenOf doc) 0 pos

/-- ProseMirror `Node.childBefore` over a child list, carrying the
previous child for boundary positions. -/
def childBeforeList : List PMNode → Option PMNode → Nat → Option PMNode
  | [], prev, _ => prev
  | c :: cs, prev, pos =>
    if pos = 0 then prev
    else if pos < nodeSize c then some c
    else childBeforeList cs (some c) (pos - nodeSize c)

/-- ProseMirror `Node.childBefore`: the direct child before the given
position (the child itself when the position is strictly inside it). -/
def childBefore (doc : PMNode) (pos : Nat) : Option PMNode :=
  if pos = 0 then none else childBeforeList (childrenOf doc) none pos

/-- ProseMirror `Node.childAfter` over a child list, tracking the child
index. -/
def childAfterList : List PMNode → Nat → Nat → Option (PMNode × Nat)
  | [], _, _ => none
  | c :: cs, idx, pos =>
    if pos < nodeSize c then some (c, idx)
    else childAfterList cs (idx + 1) (pos - nodeSize c)

/-- ProseMirror `Node.childAfter`: the direct child at or after the given
position, with its index. -/
def childAfter (doc : PMNode) (pos : Nat) : Option (PMNode × Nat) :=
  childAfterList (childrenOf doc) 0 pos

/-- Direct child count of a node. -/
def childCount (doc : PMNode) : Nat :=
  (childrenOf doc).length

/-- Content size of the document node. -/
def docContentSize (doc : PMNode) : Nat :=
  contentSize (childrenOf doc)

/-! ## Position predicates (`src/utils/pagination.ts` lines 28-564) -/

/-- Embedding of `isParagraphNode`: the node exists and its type name is
"paragraph". -/
def isParagraphNodeB (n : Option PMNode) : Bool :=
  match n with
  | none => false
  | some x => nameOf x == "paragraph"

/-- Embedding of `isTextNode`: the node exists and its type name is
"text". -/
def isTextNodeB (n : Option PMNode) : Bool :=
  match n with
  | none => false
  | some x => nameOf x == "text"

/-- Embedding of `isPositionWithinParagraph`: the parent of the resolved
position is a paragraph (`getPositionNodeType`, whose source is not under
src/, is modelled from the spec as the type of the resolved parent). -/
def isPositionWithinParagraph (doc : PMNode) (pos : Nat) : Bool :=
  nameOf (parentAtNode doc pos) == "paragraph"

/-- Embedding of `isPosAtStartOfDocument` (pagination.ts line 398):
`$pos.pos <= 1`. -/
def isPosAtStartOfDocumentB (_doc : PMNode) (pos : Nat) : Bool :=
  pos ≤ 1

/-- Embedding of `isPosAtEndOfDocument` (pagination.ts line 412):
`$pos.pos >= doc.nodeSize - 2`, and the document node size is its content
size plus two. -/
def isPosAtEndOfDocumentB (doc : PMNode) (pos : Nat) : Bool :=
  docContentSize doc ≤ pos

/-- Embedding of `getPreviousParagraph` (pagination.ts lines 426-447):
scan positions downward from `pos - 1` for a paragraph node. -/
def prevParagraphAux (doc : PMNode) : Nat → Option (Nat × PMNode)
  | 0 => none
  | q + 1 =>
    match nodeAtNode doc q with
    | some n => if nameOf n == "paragraph" then some (q, n) else prevParagraphAux doc q
    | none => prevParagraphAux doc q

/-- Entry point of `getPreviousParagraph`; `none` models the `-1` result. -/
def getPreviousParagraph (doc : PMNode) (pos : Nat) : Option (Nat × PMNode) :=
  prevParagraphAux doc pos

/-- Embedding of the upward scan of `getNextParagraph` (pagination.ts
lines 455-477): positions are probed upward while below the document node
size. -/
def nextParagraphAux (doc : PMNode) (docLen : Nat) : Nat → Nat → Option (Nat × PMNode)
  | 0, _ => none
  | f + 1, q =>
    if q < docLen then
      match nodeAtNode doc (q + 1) with
      | some n =>
        if nameOf n == "paragraph" then some (q + 1, n) else nextParagraphAux doc docLen f (q + 1)
      | none => nextParagraphAux doc docLen f (q + 1)
    else none

/-- Entry point of `getNextParagraph`; `none` models the `-1` result. -/
def getNextParagraph (doc : PMNode) (pos : Nat) : Option (Nat × PMNode) :=
  nextParagraphAux doc (docContentSize doc + 2) (docContentSize doc + 2) pos

/-- Embedding of `getPageNodeAndPosition` (pagination.ts lines 91-104):
position of the page ancestor together with the page node found there;
`none` models the `-1` / warning path. -/
def getPageNodeAndPosition (doc : PMNode) (pos : Nat) : Option (Nat × PMNode) :=
  match ancestorPosOfType doc pos "page" with
  | none => none
  | some p =>
    match nodeAtNode doc p with
    | some n => if nameOf n == "page" then some (p, n) else none
    | none => none

/-- Embedding of `getParagraphNodeAndPosition` (pagination.ts lines
112-138): at the document start the next paragraph is used, at the
document end the previous one, otherwise the paragraph ancestor. -/
def getParagraphNodeAndPosition (doc : PMNode) (pos : Nat) : Option (Nat × PMNode) :=
  if isPosAtStartOfDocumentB doc pos then getNextParagraph doc pos
  else if isPosAtEndOfDocumentB doc pos then getPreviousParagraph doc pos
  else
    match ancestorPosOfType doc pos "paragraph" with
    | none => none
    | some p =>
      match nodeAtNode doc p with
      | some n => if nameOf n == "paragraph" then some (p, n) else none
      | none => none

/-- Embedding of `isPosMatchingStartOfPageCondition` (pagination.ts lines
246-295). -/
def isPosAtStartOfPageCond (doc : PMNode) (pos : Nat) (checkExactStart : Bool) : Bool :=
  if isPosAtStartOfDocumentB doc pos then true
  else if ¬ isPositionWithinParagraph doc pos then false
  else
    match getPageNodeAndPosition doc pos, getParagraphNodeAndPosition doc pos with
    | some (pagePos, _), some (paraPos, _) =>
      let isFirstParagraph := pagePos + 1 == paraPos
      if checkExactStart then isFirstParagraph && (pos == paraPos + 1)
      else isFirstParagraph
    | _, _ => false

/-- Embedding of `isPosMatchingEndOfPageCondition` (pagination.ts lines
324-370); the end positions are `pagePos + pageNode.content.size` and
`paragraphPos + paragraphNode.content.size`. -/
def isPosAtEndOfPageCond (doc : PMNode) (pos : Nat) (checkExactEnd : Bool) : Bool :=
  if isPosAtEndOfDocumentB doc pos then true
  else if ¬ isPositionWithinParagraph doc pos then false
  else
    match getPageNodeAndPosition doc pos, getParagraphNodeAndPosition doc pos with
    | some (pagePos, pageNode), some (paraPos, paraNode) =>
      let endOfParagraphPos := paraPos + contentSize (childrenOf paraNode)
      let endOfPagePos := pagePos + contentSize (childrenOf pageNode)
      if checkExactEnd then pos == endOfPagePos
      else endOfParagraphPos + 1 == endOfPagePos
    | _, _ => false

/-- Modelled from the external `@tiptap/core` collaborator: `isNodeEmpty`
holds when the node has no content. -/
def isNodeEmptyB : PMNode → Bool
  | PMNode.text s => s.isEmpty
  | PMNode.node _ _ cs => cs.isEmpty

/-! ## Structural edits and selection helpers

The helpers `deleteNode`, `appendAndReplaceNode` (utils/node.ts) and the
selection utilities (utils/selection.ts) are code of the repository that
is not under src/; they are modelled from the spec below. -/

mutual

/-- Removal of the node starting exactly at the given content position
from a child list, descending into the child containing the position. -/
def removeInList : List PMNode → Nat → List PMNode
  | [], _ => []
  | c :: cs, pos =>
    if pos = 0 then cs
    else if pos < nodeSize c then removeInNode c (pos - 1) :: cs
    else c :: removeInList cs (pos - nodeSize c)

/-- Removal step descending into a node. -/
def removeInNode : PMNode → Nat → PMNode
  | PMNode.text s, _ => PMNode.text s
  | PMNode.node n a cs, pos => PMNode.node n a (removeInList cs pos)

end

/-- Modelled from the spec: `deleteNode(tr, pos, node)` deletes the node
at the given position (the range from the position to the position plus
the node size). -/
def deleteNodeM (doc : PMNode) (pos : Nat) : PMNode :=
  match doc with
  | PMNode.text s => PMNode.text s
  | PMNode.node n a cs => PMNode.node n a (removeInList cs pos)

mutual

/-- Replacement of the node starting exactly at the given content position
in a child list. -/
def replaceInList (nw : PMNode) : List PMNode → Nat → List PMNode
  | [], _ => []
  | c :: cs, pos =>
    if pos = 0 then nw :: cs
    else if pos < nodeSize c then replaceInNode nw c (pos - 1) :: cs
    else c :: replaceInList nw cs (pos - nodeSize c)

/-- Replacement step descending into a node. -/
def replaceInNode (nw : PMNode) : PMNode → Nat → PMNode
  | PMNode.text s, _ => PMNode.text s
  | PMNode.node n a cs, pos => PMNode.node n a (replaceInList nw cs pos)

end

/-- Replacement of the node at a document content position. -/
def replaceNodeAtM (doc : PMNode) (pos : Nat) (nw : PMNode) : PMNode :=
  match doc with
  | PMNode.text s => PMNode.text s
  | PMNode.node n a cs => PMNode.node n a (replaceInList nw cs pos)

/-- Modelled from the spec: `appendAndReplaceNode(tr, pos, node, other)`
appends the content of the other node to the node at the position and
replaces it (the boundary merge of §4.7 appends the current paragraph
content to the previous paragraph). -/
def appendAndReplaceNodeM (doc : PMNode) (pos : Nat) (target extra : PMNode) : PMNode :=
  replaceNodeAtM doc pos
    (PMNode.node (nameOf target) (attrsOf target) (childrenOf target ++ childrenOf extra))

/-- Modelled from the spec: `setSelectionToEndOfParagraph` places the
selection at the end of the merged paragraph, the last position inside the
node now found at the given position. -/
def selEndOfParagraphM (doc : PMNode) (pos : Nat) : Nat :=
  match nodeAtNode doc pos with
  | some n => pos + nodeSize n - 1
  | none => pos

/-- Modelled from the spec: `moveToPreviousTextBlock` selects the end of
the previous text block. -/
def prevTextBlockSel (doc : PMNode) (pos : Nat) : Option Nat :=
  match getPreviousParagraph doc pos with
  | some (p, n) => some (p + nodeSize n - 1)
  | none => none

/-- Modelled from the spec: `moveToNextTextBlock` selects the start of the
next text block. -/
def nextTextBlockSel (doc : PMNode) (pos : Nat) : Option Nat :=
  match getNextParagraph doc pos with
  | some (p, _) => some (p + 1)
  | none => none

/-- Modelled from the spec: `moveToNearestTextSelection` keeps the nearest
valid text position. -/
def nearestTextSel (_doc : PMNode) (pos : Nat) : Option Nat :=
  some pos

/-- Modelled from the external ProseMirror `Fragment.cut(0, target)`: keep
leading children that fit and cut a final text node to the remaining
length. -/
def cutChildren : List PMNode → Nat → List PMNode
  | [], _ => []
  | c :: cs, target =>
    if target = 0 then []
    else if nodeSize c ≤ target then c :: cutChildren cs (target - nodeSize c)
    else
      match c with
      | PMNode.text s => [PMNode.text (s.take target)]
      | PMNode.node n a kids => [PMNode.node n a (cutChildren kids (target - 1))]

/-- Transaction outcome of a handled keymap command: the resulting
document and the selection set by the handler (if any). -/
structure TrM where
  doc : PMNode
  sel : Option Nat
deriving DecidableEq

/-! ## Keymap handlers (`src/PaginationExtension.ts`) -/

/-- Shallow embedding of the Backspace keymap handler
(PaginationExtension.ts lines 296-385).  A `none` result models the
handler returning false (not handled); `some tr` models dispatching the
transaction and returning true. -/
def backspaceHandler (doc : PMNode) (selPos : Nat) (highlighted : Bool) : Option TrM :=
  if highlighted then none
  else if ¬ isPositionWithinParagraph doc selPos then none
  else if isPosAtEndOfPageCond doc selPos true then
    match getParagraphNodeAndPosition doc selPos with
    | none => none
    | some (paraPos, para) =>
      if isNodeEmptyB para then
        let doc1 := deleteNodeM doc paraPos
        some { doc := doc1, sel := prevTextBlockSel doc1 paraPos }
      else
        let newPara := PMNode.node "paragraph" {}
          (cutChildren (childrenOf para) (contentSize (childrenOf para) - 1))
        some { doc := replaceNodeAtM doc paraPos newPara, sel := some (selPos - 1) }
  else if ¬ isPosAtStartOfPageCond doc selPos true then none
  else
    match ancestorPosOfType doc selPos "page" with
    | none => none
    | some pagePos =>
      if selPos ≠ pagePos + 2 then none
      else
        match childBefore doc pagePos with
        | none => none
        | some prevPageNode =>
          if ¬ (nameOf prevPageNode == "page") then none
          else
            match getParagraphNodeAndPosition doc selPos with
            | none => none
            | some (paraPos, para) =>
              match getPreviousParagraph doc paraPos with
              | none => none
              | some (prevParaPos, prevPara) =>
                let doc1 :=
                  if ¬ isNodeEmptyB prevPara ∨ ¬ isNodeEmptyB para then deleteNodeM doc paraPos
                  else doc
                let doc2 := appendAndReplaceNodeM doc1 prevParaPos prevPara para
                some { doc := doc2, sel := some (selEndOfParagraphM doc2 prevParaPos) }

/-- Shallow embedding of the Delete keymap handler
(PaginationExtension.ts lines 386-484).  At the end of the document the
dispatched transaction carries the unchanged document and no selection
change. -/
def deleteHandler (doc : PMNode) (selPos : Nat) (highlighted : Bool) : Option TrM :=
  if highlighted then none
  else if ¬ isPositionWithinParagraph doc selPos then none
  else if ¬ isPosAtEndOfPageCond doc selPos true then none
  else
    match nodeAtNode doc (selPos - 1) with
    | none => none
    | some thisTextNode =>
      match getParagraphNodeAndPosition doc selPos with
      | none => none
      | some (paraPos, para) =>
        if ¬ (isParagraphNodeB (some thisTextNode) || isTextNodeB (some thisTextNode)) then none
        else
          match childAfter doc paraPos with
          | none => none
          | some (pageChild, idx) =>
            if ¬ (nameOf pageChild == "page") then none
            else
              let nextPageNum := idx + 1
              if childCount doc ≤ nextPageNum then some { doc := doc, sel := none }
              else
                match (childrenOf doc)[nextPageNum]? with
                | none => none
                | some nextPage =>
                  if ¬ (nameOf nextPage == "page") then none
                  else
                    match getNextParagraph doc selPos with
                    | none => none
                    | some (nextParaPos, nextPara) =>
                      let doc1 :=
                        if ¬ isNodeEmptyB nextPara then deleteNodeM doc nextParaPos else doc
                      let doc2 := appendAndReplaceNodeM doc1 paraPos para nextPara
                      let sel :=
                        if isNodeEmptyB para then
                          if isNodeEmptyB nextPara then nextTextBlockSel doc2 selPos
                          else nearestTextSel doc2 selPos
                        else some selPos
                      some { doc := doc2, sel := sel }

/-! ## Derived notions used in the claim statements -/

mutual

/-- Concatenated text of all text descendants of a node. -/
def textContent : PMNode → String
  | PMNode.text s => s
  | PMNode.node _ _ cs => textContentList cs

/-- Concatenated text of a child list. -/
def textContentList : List PMNode → String
  | [] => ""
  | c :: cs => textContent c ++ textContentList cs

end

/-- Content of a page sequence flattened in order. -/
def pagesJoin (ps : List (Attrs × List PMNode)) : List PMNode :=
  (ps.map Prod.snd).flatten

/-- Start positions of the children of a list placed at a base position,
computed by prefix-summing the sizes of the preceding siblings (the
address-space description of §3 of the specification). -/
def startList (cs : List PMNode) (base : Nat) : List Nat :=
  (List.range cs.length).map (fun i => base + ((cs.take i).map nodeSize).sum)

/-- Children paired with their start positions. -/
def withStarts (cs : List PMNode) (base : Nat) : List (PMNode × Nat) :=
  cs.zip (startList cs base)

/-- Modelled from the spec, amended by the counterexample of claim C5:
children of a top-level page container are emitted at their start
positions in the pre-pass document, while a non-page top-level node is
emitted at its start position plus one. -/
def collectRef (doc : PMNode) : List (PMNode × Nat) :=
  ((withStarts (childrenOf doc) 0).map (fun pr =>
    if nameOf pr.1 = "page" then withStarts (childrenOf pr.1) (pr.2 + 1)
    else [(pr.1, pr.2 + 1)])).flatten

/-! ## Concrete instances used by counterexamples and witnesses -/

/-- Paragraph holding one text node. -/
def mkPara (s : String) : PMNode :=
  PMNode.node "paragraph" {} [PMNode.text s]

/-- Paragraph with no content. -/
def emptyPara : PMNode :=
  PMNode.node "paragraph" {} []

/-- Document node with the given children. -/
def mkDocNode (cs : List PMNode) : PMNode :=
  PMNode.node "doc" {} cs

/-- Table row holding one text node. -/
def mkRow (s : String) : PMNode :=
  PMNode.node "tableRow" {} [PMNode.text s]

/-- Budget of page attributes: their resolved content height. -/
def budgetC : Attrs → Int :=
  fun a => a.contentHeight

/-- Constant page-attribute resolver with content height 10. -/
def resolverC : Nat → Attrs :=
  fun _ => { contentHeight := 10 }

/-- Four empty paragraphs at consecutive old positions 1, 3, 5, 7. -/
def entriesC3 : List (PMNode × Nat) :=
  [(emptyPara, 1), (emptyPara, 3), (emptyPara, 5), (emptyPara, 7)]

/-- Packing of the four paragraphs, each of height 10, under budget 10:
one paragraph per page, four pages of size 4 each. -/
def resultC3 : BuildResult :=
  buildNewDocument budgetC resolverC 1 0 entriesC3 [10, 10, 10, 10]

/-- Document with one page holding an empty paragraph, followed by a
top-level paragraph that starts at position 4. -/
def docC5 : PMNode :=
  mkDocNode [PMNode.node "page" {} [emptyPara], mkPara "x"]

/-- Table of three rows with one header row. -/
def tableC1 : PMNode :=
  PMNode.node "table" { headerRows := some 1 } [mkRow "r1", mkRow "r2", mkRow "r3"]

/-- Packing of the single table entry of height 30 under budget 10. -/
def resultC1 : BuildResult :=
  buildNewDocument budgetC resolverC 1 0 [(tableC1, 1)] [30]

/-- Table with header row H and body rows A and B. -/
def tableC6 : PMNode :=
  PMNode.node "table" { headerRows := some 1 } [mkRow "H", mkRow "A", mkRow "B"]

/-- Measurement of the three rows of height 10 each. -/
def measC6 : TableMeasurement :=
  measureTableCore [10, 10, 10] 1

/-- Split of the 30-high table at available height 20 with page height 30. -/
def splitC6 : Option TableSplitResult :=
  splitTableAtHeight headerRowCountV1 4 7 tableC6 20 measC6 30

/-- Fallback split result for `Option.getD`. -/
def dfltSplit : TableSplitResult :=
  { tables := [], mapping := [], groupId := 0, measurements := [] }

/-- Concrete split result of the H, A, B table. -/
def splitC6r : TableSplitResult :=
  splitC6.getD dfltSplit

/-- Five-row header-led table whose split recurses (remainder 40 exceeds
the page height 20). -/
def tableC10 : PMNode :=
  PMNode.node "table" { headerRows := some 1 }
    [mkRow "H", mkRow "A", mkRow "B", mkRow "C", mkRow "D"]

/-- Measurement of the five rows of height 10 each. -/
def measC10 : TableMeasurement :=
  measureTableCore [10, 10, 10, 10, 10] 1

/-- Concrete recursive split result of the five-row table. -/
def splitC10r : TableSplitResult :=
  (splitTableAtHeight headerRowCountV1 6 7 tableC10 20 measC10 20).getD dfltSplit

/-- Two-row table with both rows of height 10. -/
def tableC7 : PMNode :=
  PMNode.node "table" {} [mkRow "r1", mkRow "r2"]

/-- Measurement of the two rows. -/
def measC7 : TableMeasurement :=
  measureTableCore [10, 10] 0

/-- Optimisation of the lone overflowing fragment under budget 10. -/
def optimC7 : List PMNode × List TableMeasurement :=
  optimiseTables [tableC7] [measC7] 10 10

/-- Two pages whose paragraphs read "Hello" and "World"; the very start of
page 2 is position 11. -/
def docC8 : PMNode :=
  mkDocNode [PMNode.node "page" {} [mkPara "Hello"], PMNode.node "page" {} [mkPara "World"]]

/-- Paragraph produced by the boundary merge. -/
def mergedParaC8 : PMNode :=
  PMNode.node "paragraph" {} [PMNode.text "Hello", PMNode.text "World"]

/-- Document after the boundary merge: the merged paragraph is the last
content of page 1 and the page-2 paragraph is removed. -/
def docC8After : PMNode :=
  mkDocNode [PMNode.node "page" {} [mergedParaC8], PMNode.node "page" {} []]

/-- Single page whose last paragraph reads "ab"; its exact end is
position 4 and no following page exists. -/
def docC9 : PMNode :=
  mkDocNode [PMNode.node "page" {} [mkPara "ab"]]

/-! ## Claim theorems -/

/-- C3 (code bug): at the failing input of four height-10 paragraphs under
budget 10 with the cursor at old position 9, `mapCursorPosition` resolves
to 17 although the new document size is 16, contradicting
`0 <= newPosition <= newDocumentSize`: `buildNewDocument` adds one slot
when a page opens and then the full page node size when it closes, so
mapped starts drift one position per page, and the clamp of
`limitMappedCursorPositions` runs before the intra-node offset is added. -/
theorem c3_mapped_position_exceeds_doc_size :
    mapCursorPosition entriesC3 9 resultC3.posMap = some 17 ∧
    resultC3.docSize = 16 ∧
    ¬ ((17 : Int) ≤ ((16 : Nat) : Int)) := by
  decide

/-- C7 (code bug): the measurement of the two-row table satisfies the
invariant, but when `optimiseTables` moves the trailing row into a fresh
fragment, the fragment measurement is built by spreading the original
measurement, keeping the stale `cumulativeHeights = [10, 20]` for
`rowHeights = [10]` and `totalHeight = 10`, so the invariant
`cumulativeHeights[i] == sum(rowHeights[0..=i])` with
`totalHeight == cumulativeHeights[last]` fails on the produced
measurement. -/
theorem c7_optimise_breaks_measurement_invariant :
    measInvariant measC7 ∧
    optimC7.2.map TableMeasurement.rowHeights = [[10], [10]] ∧
    optimC7.2.map TableMeasurement.cumulativeHeights = [[10], [10, 20]] ∧
    ¬ measInvariant (optimC7.2.getD 1 dfltMeas) := by
  decide

/-- C8 (confirmed, with edit helpers modelled from the spec): Backspace at
position 11, the very start of page 2 of the Hello / World document,
dispatches a transaction whose document carries the merged paragraph as
the last content of page 1 with the page-2 paragraph removed, the merged
paragraph reads "HelloWorld", and the selection lands at position 12,
offset 5 past the merge point 7 (the end of "Hello" inside the merged
paragraph). -/
theorem c8_backspace_boundary_merge :
    backspaceHandler docC8 11 false = some { doc := docC8After, sel := some 12 } ∧
    textContent mergedParaC8 = "HelloWorld" ∧
    (12 : Nat) = 7 + 5 := by
  decide

/-- C9 (confirmed): Delete at position 4, the exact end of the only page
of the single-page document, reports handled and dispatches a transaction
with the document unchanged and no selection change. -/
theorem c9_delete_end_of_document_noop :
    deleteHandler docC9 4 false = some { doc := docC9, sel := none } ∧
    childCount docC9 = 1 ∧
    isPosAtEndOfPageCond docC9 4 true = true := by
  decide

/-- C1 (counterexample): the single entry is a table of three rows whose
height 30 exceeds the page budget 10, yet `buildNewDocument` places the
whole table un-split as the sole content of one page; no delegation to
the table splitter happens, so the output fragment is the entire table
with more than one row and a height above the budget, contradicting the
claimed delegation that leaves no fragment above the budget. -/
theorem c1_oversized_table_not_split :
    resultC1.pages.map Prod.snd = [[tableC1]] ∧
    (childrenOf tableC1).length = 3 ∧
    budgetC (resolverC 0) < 30 := by
  decide

/-- C6 (counterexample): splitting the header-led table H, A, B (heights
10 each) at available height 20 produces the fragments [H, A] and [B];
the second fragment does not begin with the header row H, refuting that
every fragment of a multi-fragment split begins with the header rows. -/
theorem c6_later_fragment_lacks_header :
    headerRowCountV1 tableC6 = 1 ∧
    splitC6.map (fun r => r.tables.map childrenOf) =
      some [[mkRow "H", mkRow "A"], [mkRow "B"]] ∧
    mkRow "B" ≠ mkRow "H" := by
  decide

/-- C5 (counterexample): collecting the document with one page (holding
an empty paragraph) followed by a top-level paragraph records positions
1 and 5; the page child is recorded at its start position 1, but the
top-level paragraph starts at position 4 (`nodeAt` finds it there), not
at the recorded position 5. -/
theorem c5_top_level_position_off_by_one :
    collectContentNodes docC5 = [(emptyPara, 1), (mkPara "x", 5)] ∧
    nodeAtNode docC5 4 = some (mkPara "x") ∧
    nodeAtNode docC5 1 = some emptyPara ∧
    (4 : Nat) ≠ 5 := by
  decide

/-! ## Lemmas on the table splitter -/

/-- Children of a created table are its rows. -/
theorem childrenOf_mkTable (a : Attrs) (g : Nat) (rows : List PMNode) :
    childrenOf (mkTable a g rows) = rows := rfl

/-- Every prefix accepted by the split-point scan fits: positive counts of
accepted rows keep the accumulated height within the available height. -/
theorem acceptCount_take_sum (avail : Int) :
    ∀ (hs : List Int) (cur : Int) (j : Nat), 0 < j → j ≤ acceptCount avail cur hs →
      cur + (hs.take j).sum ≤ avail := by
  intro hs
  induction hs with
  | nil => intro cur j hj hle; simp [acceptCount] at hle; omega
  | cons h t ih =>
    intro cur j hj hle
    simp only [acceptCount] at hle
    split at hle
    · omega
    · rename_i hfit
      match j, hj with
      | 1, _ => simpa using le_of_not_lt hfit
      | j + 2, _ =>
        have := ih (cur + h) (j + 1) (by omega) (by omega)
        simp only [List.take_succ_cons, List.sum_cons] at this ⊢
        omega

/-- The scan is maximal: when it stops before the end, the next row would
exceed the available height. -/
theorem acceptCount_max (avail : Int) :
    ∀ (hs : List Int) (cur : Int), acceptCount avail cur hs < hs.length →
      avail < cur + (hs.take (acceptCount avail cur hs + 1)).sum := by
  intro hs
  induction hs with
  | nil => intro cur hlt; simp [acceptCount] at hlt
  | cons h t ih =>
    intro cur hlt
    by_cases hc : avail < cur + h
    · simp [acceptCount, hc]
    · simp only [acceptCount, if_neg hc] at hlt ⊢
      have hlt2 : acceptCount avail (cur + h) t < t.length := by
        simp only [List.length_cons] at hlt; omega
      have hrec := ih (cur + h) hlt2
      have hidx : 1 + acceptCount avail (cur + h) t + 1 =
          (acceptCount avail (cur + h) t + 1) + 1 := by omega
      rw [hidx, List.take_succ_cons, List.sum_cons]
      omega

/-- Row prefixes beyond the header block up to the split index stay within
the available height. -/
theorem findSplitIndex_prefix_le (hdr : Nat) (hs : List Int) (avail : Int) :
    ∀ j, hdr < j → j ≤ findSplitIndex hdr hs avail → (hs.take j).sum ≤ avail := by
  intro j hj1 hj2
  have h1 : j - hdr ≤ acceptCount avail (hs.take hdr).sum (hs.drop hdr) := by
    simp only [findSplitIndex] at hj2; omega
  have h2 := acceptCount_take_sum avail (hs.drop hdr) (hs.take hdr).sum (j - hdr) (by omega) h1
  have h3 : hs.take j = hs.take hdr ++ (hs.drop hdr).take (j - hdr) := by
    conv_lhs => rw [show j = hdr + (j - hdr) by omega]
    rw [List.take_add]
  rw [h3, List.sum_append]
  omega

/-- The split index is maximal: when rows remain, adding the next row to
the prefix exceeds the available height. -/
theorem findSplitIndex_next_exceeds (hdr : Nat) (hs : List Int) (avail : Int) :
    findSplitIndex hdr hs avail < hs.length →
    avail < (hs.take (findSplitIndex hdr hs avail + 1)).sum := by
  intro hlt
  have h1 : acceptCount avail (hs.take hdr).sum (hs.drop hdr) < (hs.drop hdr).length := by
    simp only [findSplitIndex] at hlt
    simp only [List.length_drop]
    omega
  have h2 := acceptCount_max avail (hs.drop hdr) (hs.take hdr).sum h1
  have h3 : hs.take (findSplitIndex hdr hs avail + 1) =
      hs.take hdr ++ (hs.drop hdr).take (acceptCount avail (hs.take hdr).sum (hs.drop hdr) + 1) := by
    conv_lhs => rw [show findSplitIndex hdr hs avail + 1 =
      hdr + (acceptCount avail (hs.take hdr).sum (hs.drop hdr) + 1) by simp only [findSplitIndex]; omega]
    rw [List.take_add]
  rw [h3, List.sum_append]
  omega

/-- Concatenating the row lists of all fragments returned by the splitter
reproduces the original row list, for any header resolver and fuel. -/
theorem split_tables_concat (hdrOf : PMNode → Nat) :
    ∀ (fuel gid : Nat) (t : PMNode) (avail : Int) (m : TableMeasurement) (pageH : Int)
      (r : TableSplitResult),
      splitTableAtHeight hdrOf fuel gid t avail m pageH = some r →
      (r.tables.map childrenOf).flatten = childrenOf t := by
  intro fuel
  induction fuel with
  | zero => intro gid t avail m pageH r hres; simp [splitTableAtHeight] at hres
  | succ n ih =>
    intro gid t avail m pageH r hres
    simp only [splitTableAtHeight] at hres
    split at hres
    · cases hres; simp [childrenOf_mkTable]
    · split at hres
      · split at hres
        · split at hres
          · exact absurd hres (by simp)
          · rename_i res heq
            cases hres
            have hrec := ih _ _ _ _ _ _ heq
            rw [childrenOf_mkTable] at hrec
            simp only [List.map_cons, List.flatten_cons, childrenOf_mkTable, hrec]
            exact List.take_append_drop _ _
        · cases hres
          simp only [List.map_cons, List.map_nil, List.flatten_cons, List.flatten_nil,
            childrenOf_mkTable, List.append_nil]
          exact List.take_append_drop _ _
      · rename_i hk
        cases hres
        simp [childrenOf_mkTable, List.take_of_length_le (le_of_not_lt hk)]

/-- With a measurement whose total is the sum of its row heights and whose
row-height list matches the rows, the fragment totals returned by the
splitter sum to the original total. -/
theorem split_measurements_sum (hdrOf : PMNode → Nat) :
    ∀ (fuel gid : Nat) (t : PMNode) (avail : Int) (m : TableMeasurement) (pageH : Int)
      (r : TableSplitResult),
      splitTableAtHeight hdrOf fuel gid t avail m pageH = some r →
      m.totalHeight = m.rowHeights.sum →
      m.rowHeights.length = (childrenOf t).length →
      (r.measurements.map TableMeasurement.totalHeight).sum = m.totalHeight := by
  intro fuel
  induction fuel with
  | zero => intro gid t avail m pageH r hres; simp [splitTableAtHeight] at hres
  | succ n ih =>
    intro gid t avail m pageH r hres hinv hlen
    simp only [splitTableAtHeight] at hres
    split at hres
    · cases hres; simp
    · split at hres
      · split at hres
        · split at hres
          · exact absurd hres (by simp)
          · rename_i res heq
            cases hres
            have hrec := ih _ _ _ _ _ _ heq rfl
              (by rw [childrenOf_mkTable]; simp; omega)
            simp only [List.map_cons, List.sum_cons, hrec]
            rw [hinv, ← List.sum_append, List.take_append_drop]
        · cases hres
          simp only [List.map_cons, List.map_nil, List.sum_cons, List.sum_nil, add_zero]
          rw [hinv, ← List.sum_append, List.take_append_drop]
      · rename_i hk
        cases hres
        have hge : m.rowHeights.length ≤ findSplitIndex (hdrOf t) m.rowHeights avail := by
          omega
        simp [List.take_of_length_le hge, hinv]

/-- In the splitting case the first returned fragment is the table built
from the row prefix up to the split index. -/
theorem split_head_take (hdrOf : PMNode → Nat) (fuel gid : Nat) (t : PMNode) (avail : Int)
    (m : TableMeasurement) (pageH : Int) (r : TableSplitResult)
    (hres : splitTableAtHeight hdrOf fuel gid t avail m pageH = some r)
    (hsplit : ¬ m.totalHeight ≤ avail) :
    r.tables.head? = some (mkTable (attrsOf t) gid
      ((childrenOf t).take (findSplitIndex (hdrOf t) m.rowHeights avail))) := by
  match fuel with
  | 0 => simp [splitTableAtHeight] at hres
  | n + 1 =>
    simp only [splitTableAtHeight] at hres
    split at hres
    · exact absurd (by assumption) hsplit
    · split at hres
      · split at hres
        · split at hres
          · exact absurd hres (by simp)
          · cases hres; rfl
        · cases hres; rfl
      · cases hres; rfl

/-- C2 (confirmed): for every table split by `splitTableAtHeight` (any
header resolver, any fuel producing a result), given a measurement whose
total equals the sum of its row heights and whose row-height list is
parallel to the rows, concatenating the row sequences of the returned
fragments in order reproduces the original row sequence, and the
per-fragment total heights sum to the original total height. -/
theorem c2_split_round_trip (hdrOf : PMNode → Nat) (fuel gid : Nat) (t : PMNode)
    (avail : Int) (m : TableMeasurement) (pageH : Int) (r : TableSplitResult)
    (hres : splitTableAtHeight hdrOf fuel gid t avail m pageH = some r)
    (hinv : m.totalHeight = m.rowHeights.sum)
    (hlen : m.rowHeights.length = (childrenOf t).length) :
    (r.tables.map childrenOf).flatten = childrenOf t ∧
    (r.measurements.map TableMeasurement.totalHeight).sum = m.totalHeight :=
  ⟨split_tables_concat hdrOf fuel gid t avail m pageH r hres,
   split_measurements_sum hdrOf fuel gid t avail m pageH r hres hinv hlen⟩

/-- Witness for C2 at the concrete H, A, B table. -/
theorem c2_split_round_trip_witness :
    (splitC6r.tables.map childrenOf).flatten = childrenOf tableC6 ∧
    (splitC6r.measurements.map TableMeasurement.totalHeight).sum = measC6.totalHeight :=
  c2_split_round_trip headerRowCountV1 4 7 tableC6 20 measC6 30 splitC6r
    (by decide) (by decide) (by decide)

/-- C6 (amended): when a table with at least one header row is split (its
total height exceeds the available height), the FIRST fragment is the
largest header-led row prefix whose cumulative height (headers included)
stays within the available height - every accepted prefix fits and the
next row would overflow - while the remaining fragments carry the leftover
rows in order; they do not re-include the header rows (the concatenation
of all fragments is exactly the original row list, see the
counterexample for a later fragment not starting with the header). -/
theorem c6_first_fragment_fitting (hdrOf : PMNode → Nat) (fuel gid : Nat) (t : PMNode)
    (avail : Int) (m : TableMeasurement) (pageH : Int) (r : TableSplitResult)
    (_hhdr : 1 ≤ hdrOf t)
    (hres : splitTableAtHeight hdrOf fuel gid t avail m pageH = some r)
    (hsplit : ¬ m.totalHeight ≤ avail) :
    (r.tables.map childrenOf).head? =
      some ((childrenOf t).take (findSplitIndex (hdrOf t) m.rowHeights avail)) ∧
    hdrOf t ≤ findSplitIndex (hdrOf t) m.rowHeights avail ∧
    (∀ j, hdrOf t < j → j ≤ findSplitIndex (hdrOf t) m.rowHeights avail →
      (m.rowHeights.take j).sum ≤ avail) ∧
    (findSplitIndex (hdrOf t) m.rowHeights avail < m.rowHeights.length →
      avail < (m.rowHeights.take (findSplitIndex (hdrOf t) m.rowHeights avail + 1)).sum) ∧
    (r.tables.map childrenOf).flatten = childrenOf t := by
  refine ⟨?_, ?_, findSplitIndex_prefix_le _ _ _, findSplitIndex_next_exceeds _ _ _,
    split_tables_concat hdrOf fuel gid t avail m pageH r hres⟩
  · rw [List.head?_map, split_head_take hdrOf fuel gid t avail m pageH r hres hsplit]
    simp [childrenOf_mkTable]
  · simp only [findSplitIndex]
    omega

/-- Witness for C6 at the concrete H, A, B table: the split index is 2,
the first fragment is the two-row prefix, and the fragments concatenate to
the original rows. -/
theorem c6_first_fragment_fitting_witness :
    findSplitIndex (headerRowCountV1 tableC6) measC6.rowHeights 20 = 2 ∧
    (splitC6r.tables.map childrenOf).head? =
      some ((childrenOf tableC6).take (findSplitIndex (headerRowCountV1 tableC6) measC6.rowHeights 20)) ∧
    (splitC6r.tables.map childrenOf).flatten = childrenOf tableC6 := by
  have h := c6_first_fragment_fitting headerRowCountV1 4 7 tableC6 20 measC6 30 splitC6r
    (by decide) (by decide) (by decide)
  exact ⟨by decide, h.1, h.2.2.2.2⟩

/-- C10 (confirmed): every result of `splitTableAtHeight` carries an empty
row mapping: the fits-within-budget case and the non-recursive split
return an empty mapping, and the recursive case only offset-adjusts the
recursively obtained (empty) mapping. -/
theorem c10_split_mapping_empty (hdrOf : PMNode → Nat) :
    ∀ (fuel gid : Nat) (t : PMNode) (avail : Int) (m : TableMeasurement) (pageH : Int)
      (r : TableSplitResult),
      splitTableAtHeight hdrOf fuel gid t avail m pageH = some r → r.mapping = [] := by
  intro fuel
  induction fuel with
  | zero => intro gid t avail m pageH r hres; simp [splitTableAtHeight] at hres
  | succ n ih =>
    intro gid t avail m pageH r hres
    simp only [splitTableAtHeight] at hres
    split at hres
    · cases hres; rfl
    · split at hres
      · split at hres
        · split at hres
          · exact absurd hres (by simp)
          · rename_i res heq
            cases hres
            simp [ih _ _ _ _ _ _ heq]
        · cases hres; rfl
      · cases hres; rfl

/-- Witness for C10 at the recursive five-row split. -/
theorem c10_split_mapping_empty_witness : splitC10r.mapping = [] :=
  c10_split_mapping_empty headerRowCountV1 6 7 tableC10 20 measC10 20 splitC10r (by decide)

/-! ## Lemmas on content collection -/

/-- Start positions over a cons: the head starts at the base and the tail
starts past the head. -/
theorem startList_cons (k : PMNode) (ks : List PMNode) (p : Nat) :
    startList (k :: ks) p = p :: startList ks (p + nodeSize k) := by
  simp only [startList, List.length_cons, List.range_succ_eq_map, List.map_cons,
    List.map_map, List.take_zero, List.map_nil, List.sum_nil, Nat.add_zero]
  congr 1
  refine List.map_congr_left ?_
  intro i _
  simp only [Function.comp_apply, Nat.succ_eq_add_one, List.take_succ_cons, List.map_cons,
    List.sum_cons]
  omega

/-- Children with starts over a cons. -/
theorem withStarts_cons (k : PMNode) (ks : List PMNode) (p : Nat) :
    withStarts (k :: ks) p = (k, p) :: withStarts ks (p + nodeSize k) := by
  simp only [withStarts, startList_cons, List.zip_cons_cons]

/-- The page-child walk of the collector records exactly the start
position of each child. -/
theorem pageChildEntries_eq_withStarts :
    ∀ (ks : List PMNode) (p : Nat), pageChildEntries ks p = withStarts ks p := by
  intro ks
  induction ks with
  | nil => intro p; rfl
  | cons k ks ih =>
    intro p
    rw [pageChildEntries, withStarts_cons, ih]

/-- The collector walk agrees with the prefix-sum reference walk at every
base offset. -/
theorem collectTop_eq_ref : ∀ (cs : List PMNode) (off : Nat),
    collectTop cs off = ((withStarts cs off).map (fun pr =>
      if nameOf pr.1 = "page" then withStarts (childrenOf pr.1) (pr.2 + 1)
      else [(pr.1, pr.2 + 1)])).flatten := by
  intro cs
  induction cs with
  | nil => intro off; rfl
  | cons c cs ih =>
    intro off
    rw [collectTop, withStarts_cons, List.map_cons, List.flatten_cons, ih]
    congr 1
    by_cases hnm : nameOf c = "page"
    · simp [hnm, pageChildEntries_eq_withStarts]
    · simp [hnm]

/-- C5 (amended): `collectContentNodes` emits, in document order, one
entry per child of each top-level page container recorded at that child's
start position (computed by prefix-summing sibling sizes), and one entry
per non-page top-level node recorded at its start position plus one. -/
theorem c5_collect_positions_characterised (doc : PMNode) :
    collectContentNodes doc = collectRef doc :=
  collectTop_eq_ref (childrenOf doc) 0

/-! ## Lemmas on the page packing loop -/

/-- Folding over the empty entry list leaves the state unchanged. -/
theorem buildRun_nil (bo : Attrs → Int) (rs : Nat → Attrs) (pc : Nat) (mh : Int)
    (st : BuildSt) : buildRun bo rs pc mh [] st = st := rfl

/-- Folding over a cons performs one loop iteration and continues. -/
theorem buildRun_cons (bo : Attrs → Int) (rs : Nat → Attrs) (pc : Nat) (mh : Int)
    (e : (PMNode × Nat) × Int) (l : List ((PMNode × Nat) × Int)) (st : BuildSt) :
    buildRun bo rs pc mh (e :: l) st = buildRun bo rs pc mh l (buildStep bo rs pc mh st e) := rfl

/-- Pages after one loop iteration: the current page is closed exactly
when the entry overflows the budget and the page is non-empty. -/
theorem buildStep_pages (bo : Attrs → Int) (rs : Nat → Attrs) (pc : Nat) (mh : Int)
    (st : BuildSt) (e : (PMNode × Nat) × Int) :
    (buildStep bo rs pc mh st e).pages =
      if bo st.attrs < st.curH + e.2 ∧ st.cur ≠ [] then st.pages ++ [(st.attrs, st.cur)]
      else st.pages := by
  by_cases hC : bo st.attrs < st.curH + e.2 ∧ st.cur ≠ []
  · simp [buildStep, hC]
  · by_cases hE : st.cur = []
    · simp [buildStep, hE]
    · have hA : ¬ bo st.attrs < st.curH + e.2 := fun hA => hC ⟨hA, hE⟩
      simp [buildStep, hA, hE]

/-- Current page content after one loop iteration: the entry node is
appended to the (possibly just reset) page content. -/
theorem buildStep_cur (bo : Attrs → Int) (rs : Nat → Attrs) (pc : Nat) (mh : Int)
    (st : BuildSt) (e : (PMNode × Nat) × Int) :
    (buildStep bo rs pc mh st e).cur =
      (if bo st.attrs < st.curH + e.2 ∧ st.cur ≠ [] then [] else st.cur) ++ [e.1.1] := by
  by_cases hC : bo st.attrs < st.curH + e.2 ∧ st.cur ≠ []
  · simp [buildStep, hC]
  · by_cases hE : st.cur = []
    · simp [buildStep, hE]
    · have hA : ¬ bo st.attrs < st.curH + e.2 := fun hA => hC ⟨hA, hE⟩
      simp [buildStep, hA, hE]

/-- Running height after one loop iteration. -/
theorem buildStep_curH (bo : Attrs → Int) (rs : Nat → Attrs) (pc : Nat) (mh : Int)
    (st : BuildSt) (e : (PMNode × Nat) × Int) :
    (buildStep bo rs pc mh st e).curH =
      (if bo st.attrs < st.curH + e.2 ∧ st.cur ≠ [] then 0 else st.curH) + max e.2 mh := by
  by_cases hC : bo st.attrs < st.curH + e.2 ∧ st.cur ≠ []
  · simp [buildStep, hC]
  · by_cases hE : st.cur = []
    · simp [buildStep, hE]
    · have hA : ¬ bo st.attrs < st.curH + e.2 := fun hA => hC ⟨hA, hE⟩
      simp [buildStep, hA, hE]

/-- Attributes after one loop iteration: re-resolved at a close when the
next page number is in range of the old document, otherwise unchanged. -/
theorem buildStep_attrs (bo : Attrs → Int) (rs : Nat → Attrs) (pc : Nat) (mh : Int)
    (st : BuildSt) (e : (PMNode × Nat) × Int) :
    (buildStep bo rs pc mh st e).attrs =
      if bo st.attrs < st.curH + e.2 ∧ st.cur ≠ [] then
        (if st.pageNum + 1 < pc then rs (st.pageNum + 1) else st.attrs)
      else st.attrs := by
  by_cases hC : bo st.attrs < st.curH + e.2 ∧ st.cur ≠ []
  · simp [buildStep, hC]
  · by_cases hE : st.cur = []
    · simp [buildStep, hE]
    · have hA : ¬ bo st.attrs < st.curH + e.2 := fun hA => hC ⟨hA, hE⟩
      simp [buildStep, hA, hE]

/-- Page number after one loop iteration. -/
theorem buildStep_pageNum (bo : Attrs → Int) (rs : Nat → Attrs) (pc : Nat) (mh : Int)
    (st : BuildSt) (e : (PMNode × Nat) × Int) :
    (buildStep bo rs pc mh st e).pageNum =
      if bo st.attrs < st.curH + e.2 ∧ st.cur ≠ [] then st.pageNum + 1 else st.pageNum := by
  by_cases hC : bo st.attrs < st.curH + e.2 ∧ st.cur ≠ []
  · simp [buildStep, hC]
  · by_cases hE : st.cur = []
    · simp [buildStep, hE]
    · have hA : ¬ bo st.attrs < st.curH + e.2 := fun hA => hC ⟨hA, hE⟩
      simp [buildStep, hA, hE]

/-- Flattened page content distributes over append. -/
theorem pagesJoin_append (xs ys : List (Attrs × List PMNode)) :
    pagesJoin (xs ++ ys) = pagesJoin xs ++ pagesJoin ys := by
  simp [pagesJoin]

/-- One loop iteration appends exactly the entry node to the flattened
content of closed pages plus the open page. -/
theorem buildStep_join (bo : Attrs → Int) (rs : Nat → Attrs) (pc : Nat) (mh : Int)
    (st : BuildSt) (e : (PMNode × Nat) × Int) :
    pagesJoin (buildStep bo rs pc mh st e).pages ++ (buildStep bo rs pc mh st e).cur =
      pagesJoin st.pages ++ st.cur ++ [e.1.1] := by
  rw [buildStep_pages, buildStep_cur]
  by_cases hC : bo st.attrs < st.curH + e.2 ∧ st.cur ≠ []
  · simp [hC, pagesJoin_append, pagesJoin]
  · simp [hC]

/-- The packing loop appends exactly the processed entry nodes, in order,
to the flattened content. -/
theorem buildRun_join (bo : Attrs → Int) (rs : Nat → Attrs) (pc : Nat) (mh : Int) :
    ∀ (l : List ((PMNode × Nat) × Int)) (st : BuildSt),
      pagesJoin (buildRun bo rs pc mh l st).pages ++ (buildRun bo rs pc mh l st).cur =
        pagesJoin st.pages ++ st.cur ++ l.map (fun e => e.1.1) := by
  intro l
  induction l with
  | nil => intro st; simp [buildRun_nil]
  | cons e t ih =>
    intro st
    rw [buildRun_cons, ih, buildStep_join]
    simp

/-- Closing the final partial page preserves the flattened content. -/
theorem finishPages_join (st : BuildSt) :
    pagesJoin (finishPages st) = pagesJoin st.pages ++ st.cur := by
  by_cases hE : st.cur = [] <;> simp [finishPages, hE, pagesJoin_append, pagesJoin]

/-- The loop only appends to the closed-page list. -/
theorem buildRun_pages_extend (bo : Attrs → Int) (rs : Nat → Attrs) (pc : Nat) (mh : Int) :
    ∀ (l : List ((PMNode × Nat) × Int)) (st : BuildSt),
      ∃ t, (buildRun bo rs pc mh l st).pages = st.pages ++ t := by
  intro l
  induction l with
  | nil => intro st; exact ⟨[], by simp [buildRun_nil]⟩
  | cons e t ih =>
    intro st
    obtain ⟨u, hu⟩ := ih (buildStep bo rs pc mh st e)
    rw [buildRun_cons, hu, buildStep_pages]
    by_cases hC : bo st.attrs < st.curH + e.2 ∧ st.cur ≠ []
    · exact ⟨(st.attrs, st.cur) :: u, by simp [hC]⟩
    · exact ⟨u, by simp [hC]⟩

/-- The finished page list extends the closed pages of the initial state. -/
theorem finish_buildRun_extend (bo : Attrs → Int) (rs : Nat → Attrs) (pc : Nat) (mh : Int)
    (l : List ((PMNode × Nat) × Int)) (st : BuildSt) :
    ∃ t, finishPages (buildRun bo rs pc mh l st) = st.pages ++ t := by
  obtain ⟨u, hu⟩ := buildRun_pages_extend bo rs pc mh l st
  by_cases hE : (buildRun bo rs pc mh l st).cur = []
  · exact ⟨u, by simp [finishPages, hE, hu]⟩
  · exact ⟨u ++ [((buildRun bo rs pc mh l st).attrs, (buildRun bo rs pc mh l st).cur)],
      by simp [finishPages, hE, hu]⟩

/-- With non-negative entry heights the running height stays
non-negative. -/
theorem buildRun_curH_nonneg (bo : Attrs → Int) (rs : Nat → Attrs) (pc : Nat) (mh : Int) :
    ∀ (l : List ((PMNode × Nat) × Int)) (st : BuildSt),
      (∀ e ∈ l, 0 ≤ e.2) → 0 ≤ st.curH → 0 ≤ (buildRun bo rs pc mh l st).curH := by
  intro l
  induction l with
  | nil => intro st _ h0; simpa [buildRun_nil] using h0
  | cons e t ih =>
    intro st hnn h0
    rw [buildRun_cons]
    refine ih _ (fun x hx => hnn x (List.mem_cons_of_mem e hx)) ?_
    rw [buildStep_curH]
    have he : (0 : Int) ≤ e.2 := hnn e (List.mem_cons_self e t)
    have : e.2 ≤ max e.2 mh := le_max_left _ _
    by_cases hC : bo st.attrs < st.curH + e.2 ∧ st.cur ≠ [] <;> simp [hC] <;> omega

/-- A loop iteration keeps the attribute state inside the image of the
resolver. -/
theorem buildStep_attrs_image (bo : Attrs → Int) (rs : Nat → Attrs) (pc : Nat) (mh : Int)
    (st : BuildSt) (e : (PMNode × Nat) × Int) (p : Nat) (him : st.attrs = rs p) :
    ∃ q, (buildStep bo rs pc mh st e).attrs = rs q := by
  rw [buildStep_attrs]
  by_cases hC : bo st.attrs < st.curH + e.2 ∧ st.cur ≠ []
  · by_cases hP : st.pageNum + 1 < pc
    · exact ⟨st.pageNum + 1, by rw [if_pos hC, if_pos hP]⟩
    · exact ⟨p, by rw [if_pos hC, if_neg hP]; exact him⟩
  · exact ⟨p, by rw [if_neg hC]; exact him⟩

/-- The packing loop splits over list append. -/
theorem buildRun_append (bo : Attrs → Int) (rs : Nat → Attrs) (pc : Nat) (mh : Int)
    (l1 l2 : List ((PMNode × Nat) × Int)) (st : BuildSt) :
    buildRun bo rs pc mh (l1 ++ l2) st = buildRun bo rs pc mh l2 (buildRun bo rs pc mh l1 st) := by
  simp [buildRun, List.foldl_append]

/-- The packing loop keeps the attribute state inside the image of the
resolver. -/
theorem buildRun_attrs_image (bo : Attrs → Int) (rs : Nat → Attrs) (pc : Nat) (mh : Int) :
    ∀ (l : List ((PMNode × Nat) × Int)) (st : BuildSt),
      (∃ p, st.attrs = rs p) → ∃ q, (buildRun bo rs pc mh l st).attrs = rs q := by
  intro l
  induction l with
  | nil => intro st him; simpa [buildRun_nil] using him
  | cons e t ih =>
    intro st him
    obtain ⟨p, hp⟩ := him
    rw [buildRun_cons]
    exact ih _ (buildStep_attrs_image bo rs pc mh st e p hp)

/-- With parallel lengths, the nodes of the zipped entry / height list
are the entry nodes. -/
theorem zip_map_entry_node (l1 : List (PMNode × Nat)) :
    ∀ (l2 : List Int), l1.length = l2.length →
      (l1.zip l2).map (fun e => e.1.1) = l1.map Prod.fst := by
  induction l1 with
  | nil => intro l2 _; simp
  | cons a t ih =>
    intro l2 hlen
    cases l2 with
    | nil => simp at hlen
    | cons b u =>
      simp only [List.zip_cons_cons, List.map_cons, List.length_cons] at hlen ⊢
      rw [ih u (by omega)]

/-- When the open page holds content whose accumulated height exceeds
every resolvable budget, the next entry closes it as-is: the final page
list continues with exactly that page, and the remaining entries fill the
pages after it. -/
theorem finish_tail_alone (bo : Attrs → Int) (rs : Nat → Attrs) (pc : Nat) (mh : Int)
    (l : List ((PMNode × Nat) × Int)) (st : BuildSt)
    (hcur : st.cur ≠ [])
    (him : ∃ p, st.attrs = rs p)
    (hbig : ∀ p, bo (rs p) < st.curH)
    (hnn : ∀ e ∈ l, 0 ≤ e.2) :
    ∃ rest, finishPages (buildRun bo rs pc mh l st) = st.pages ++ (st.attrs, st.cur) :: rest ∧
      pagesJoin rest = l.map (fun e => e.1.1) := by
  cases l with
  | nil =>
    refine ⟨[], ?_, by simp [pagesJoin]⟩
    simp [buildRun_nil, finishPages, hcur]
  | cons e t =>
    obtain ⟨p, hp⟩ := him
    have hC : bo st.attrs < st.curH + e.2 ∧ st.cur ≠ [] := by
      refine ⟨?_, hcur⟩
      have h1 := hbig p
      have h2 : (0 : Int) ≤ e.2 := hnn e (List.mem_cons_self e t)
      rw [hp]; omega
    have hpages2 : (buildStep bo rs pc mh st e).pages = st.pages ++ [(st.attrs, st.cur)] := by
      rw [buildStep_pages, if_pos hC]
    have hcur2 : (buildStep bo rs pc mh st e).cur = [e.1.1] := by
      rw [buildStep_cur, if_pos hC]; rfl
    obtain ⟨u, hu⟩ := finish_buildRun_extend bo rs pc mh t (buildStep bo rs pc mh st e)
    have hjoin : pagesJoin (finishPages (buildRun bo rs pc mh t (buildStep bo rs pc mh st e))) =
        pagesJoin (buildStep bo rs pc mh st e).pages ++ (buildStep bo rs pc mh st e).cur ++
          t.map (fun e => e.1.1) := by
      rw [finishPages_join, buildRun_join]
    rw [hu, pagesJoin_append, hcur2, List.append_assoc] at hjoin
    have hrest := List.append_cancel_left hjoin
    refine ⟨u, ?_, ?_⟩
    · rw [buildRun_cons, hu, hpages2]; simp
    · simpa using hrest

/-- Page list produced by `buildNewDocument`, unfolded to the loop. -/
theorem buildNewDocument_pages (bo : Attrs → Int) (rs : Nat → Attrs) (pc : Nat) (mh : Int)
    (entries : List (PMNode × Nat)) (heights : List Int) :
    (buildNewDocument bo rs pc mh entries heights).pages =
      finishPages (buildRun bo rs pc mh (entries.zip heights) (initSt rs)) := rfl

/-- C1 (amended): `buildNewDocument` places every entry into exactly one
output page preserving input order, and an entry taller than every page
budget - table or not - is placed alone on its own page, un-split: the
pages flatten to the entry sequence, with the oversized entry forming a
singleton page between the pages holding the entries before and after
it.  (The delegation of oversized tables to the table splitter claimed by
the specification does not exist in `buildNewDocument`; see the
counterexample.) -/
theorem c1_oversized_entry_alone (bo : Attrs → Int) (rs : Nat → Attrs) (pc : Nat) (mh : Int)
    (e1 e2 : List (PMNode × Nat)) (en : PMNode × Nat) (h1 h2 : List Int) (hn : Int)
    (hl1 : e1.length = h1.length) (hl2 : e2.length = h2.length)
    (hnn1 : ∀ h ∈ h1, 0 ≤ h) (hnn2 : ∀ h ∈ h2, 0 ≤ h)
    (hover : ∀ p, bo (rs p) < hn) :
    ∃ P1 P2,
      (buildNewDocument bo rs pc mh (e1 ++ en :: e2) (h1 ++ hn :: h2)).pages.map Prod.snd
        = P1 ++ [en.1] :: P2 ∧
      P1.flatten = e1.map Prod.fst ∧
      P2.flatten = e2.map Prod.fst := by
  have hzip : (e1 ++ en :: e2).zip (h1 ++ hn :: h2) =
      e1.zip h1 ++ ((en, hn) :: e2.zip h2) := by
    rw [List.zip_append hl1]
    rfl
  have key : ∀ st2 : BuildSt, st2.cur = [en.1] → pagesJoin st2.pages = e1.map Prod.fst →
      (∃ p, st2.attrs = rs p) → (∀ p, bo (rs p) < st2.curH) →
      ∃ P1 P2, (finishPages (buildRun bo rs pc mh (e2.zip h2) st2)).map Prod.snd
          = P1 ++ [en.1] :: P2 ∧ P1.flatten = e1.map Prod.fst ∧ P2.flatten = e2.map Prod.fst := by
    intro st2 hc hpj him hbig
    obtain ⟨rest, hfin, hrest⟩ := finish_tail_alone bo rs pc mh (e2.zip h2) st2
      (by rw [hc]; simp) him hbig (fun e he => hnn2 e.2 (List.of_mem_zip he).2)
    refine ⟨st2.pages.map Prod.snd, rest.map Prod.snd, ?_, ?_, ?_⟩
    · rw [hfin]; simp [hc]
    · simpa [pagesJoin] using hpj
    · have := hrest
      rw [zip_map_entry_node e2 h2 hl2] at this
      simpa [pagesJoin] using this
  rw [buildNewDocument_pages, hzip, buildRun_append, buildRun_cons]
  generalize hst1 : buildRun bo rs pc mh (e1.zip h1) (initSt rs) = st1
  have hH1 : 0 ≤ st1.curH := by
    rw [← hst1]
    exact buildRun_curH_nonneg bo rs pc mh _ _
      (fun e he => hnn1 e.2 (List.of_mem_zip he).2) (by simp [initSt])
  have him1 : ∃ p, st1.attrs = rs p := by
    rw [← hst1]
    exact buildRun_attrs_image bo rs pc mh _ _ ⟨0, rfl⟩
  have hjoin1 : pagesJoin st1.pages ++ st1.cur = e1.map Prod.fst := by
    rw [← hst1, buildRun_join, zip_map_entry_node e1 h1 hl1]
    simp [initSt, pagesJoin]
  by_cases hE : st1.cur = []
  · have hCn : ¬ (bo st1.attrs < st1.curH + ((en, hn) : (PMNode × Nat) × Int).2 ∧ st1.cur ≠ []) :=
      fun hC => hC.2 hE
    refine key _ ?_ ?_ ?_ ?_
    · rw [buildStep_cur, if_neg hCn, hE]; rfl
    · rw [buildStep_pages, if_neg hCn]
      rw [hE, List.append_nil] at hjoin1
      exact hjoin1
    · obtain ⟨p, hp⟩ := him1
      exact ⟨p, by rw [buildStep_attrs, if_neg hCn]; exact hp⟩
    · intro p
      rw [buildStep_curH, if_neg hCn]
      have h2 := hover p
      have h3 : hn ≤ max hn mh := le_max_left _ _
      simp only []
      omega
  · have hC : bo st1.attrs < st1.curH + ((en, hn) : (PMNode × Nat) × Int).2 ∧ st1.cur ≠ [] := by
      refine ⟨?_, hE⟩
      obtain ⟨p, hp⟩ := him1
      have h2 := hover p
      rw [hp]
      simp only []
      omega
    refine key _ ?_ ?_ ?_ ?_
    · rw [buildStep_cur, if_pos hC]; rfl
    · rw [buildStep_pages, if_pos hC, pagesJoin_append]
      simpa [pagesJoin] using hjoin1
    · obtain ⟨p, hp⟩ := him1
      rw [buildStep_attrs, if_pos hC]
      by_cases hP : st1.pageNum + 1 < pc
      · exact ⟨st1.pageNum + 1, by rw [if_pos hP]⟩
      · exact ⟨p, by rw [if_neg hP]; exact hp⟩
    · intro p
      rw [buildStep_curH, if_pos hC]
      have h2 := hover p
      have h3 : hn ≤ max hn mh := le_max_left _ _
      simp only []
      omega

/-- When the open page is non-empty, the next page added to the final
list carries the current attribute state. -/
theorem finish_first_added (bo : Attrs → Int) (rs : Nat → Attrs) (pc : Nat) (mh : Int) :
    ∀ (l : List ((PMNode × Nat) × Int)) (st : BuildSt), st.cur ≠ [] →
      ∃ c rest, finishPages (buildRun bo rs pc mh l st) = st.pages ++ (st.attrs, c) :: rest := by
  intro l
  induction l with
  | nil =>
    intro st hcur
    exact ⟨st.cur, [], by simp [buildRun_nil, finishPages, hcur]⟩
  | cons e t ih =>
    intro st hcur
    rw [buildRun_cons]
    by_cases hC : bo st.attrs < st.curH + e.2 ∧ st.cur ≠ []
    · obtain ⟨u, hu⟩ := finish_buildRun_extend bo rs pc mh t (buildStep bo rs pc mh st e)
      refine ⟨st.cur, u, ?_⟩
      rw [hu, buildStep_pages, if_pos hC]
      simp
    · obtain ⟨c, rest, hcr⟩ := ih (buildStep bo rs pc mh st e) (by rw [buildStep_cur]; simp)
      refine ⟨c, rest, ?_⟩
      rw [hcr, buildStep_pages, if_neg hC, buildStep_attrs, if_neg hC]

/-- Starting from an empty state, the first finished page carries the
initial attribute state. -/
theorem finish_first_attrs_empty (bo : Attrs → Int) (rs : Nat → Attrs) (pc : Nat) (mh : Int) :
    ∀ (l : List ((PMNode × Nat) × Int)) (st : BuildSt), st.cur = [] → st.pages = [] →
      ∀ pg, (finishPages (buildRun bo rs pc mh l st))[0]? = some pg → pg.1 = st.attrs := by
  intro l
  cases l with
  | nil =>
    intro st hcur hpages pg hpg
    rw [buildRun_nil] at hpg
    simp [finishPages, hcur, hpages] at hpg
  | cons e t =>
    intro st hcur hpages pg hpg
    rw [buildRun_cons] at hpg
    have hC : ¬ (bo st.attrs < st.curH + e.2 ∧ st.cur ≠ []) := fun hc => hc.2 hcur
    obtain ⟨c, rest, hcr⟩ := finish_first_added bo rs pc mh t (buildStep bo rs pc mh st e)
      (by rw [buildStep_cur]; simp)
    rw [hcr, buildStep_pages, if_neg hC, hpages, buildStep_attrs, if_neg hC] at hpg
    simp at hpg
    rw [← hpg]

/-- Simulation of two packing runs: if the second run processes the same
node / height sequence from a mirrored state, resolves its attributes
from the pages that the first run will produce, and its page-count bound
covers them, then it reproduces exactly the pages of the first run. -/
theorem buildRun_sim (bo : Attrs → Int) (rsA rsB : Nat → Attrs) (pcA pcB : Nat) (mh : Int) :
    ∀ (lA lB : List ((PMNode × Nat) × Int)) (stA stB : BuildSt),
      lA.map (fun e => (e.1.1, e.2)) = lB.map (fun e => (e.1.1, e.2)) →
      stB.cur = stA.cur → stB.curH = stA.curH → stB.attrs = stA.attrs →
      stB.pageNum = stB.pages.length →
      stB.pages.length = stA.pages.length →
      (∀ k pg, stA.pages.length ≤ k →
        (finishPages (buildRun bo rsA pcA mh lA stA))[k]? = some pg → rsB k = pg.1) →
      (finishPages (buildRun bo rsA pcA mh lA stA)).length ≤ pcB →
      finishPages (buildRun bo rsB pcB mh lB stB) =
        stB.pages ++ (finishPages (buildRun bo rsA pcA mh lA stA)).drop stA.pages.length := by
  intro lA
  induction lA with
  | nil =>
    intro lB stA stB hproj hcur hcurH hattrs hpnB hlen hres hpc
    have hlB : lB = [] := by
      cases lB with
      | nil => rfl
      | cons b tb => simp at hproj
    subst hlB
    rw [buildRun_nil] at hres hpc ⊢
    rw [buildRun_nil]
    by_cases hE : stA.cur = []
    · have hEB : stB.cur = [] := hcur.trans hE
      simp only [finishPages, if_pos hE, if_pos hEB]
      simp
    · have hEB : ¬ stB.cur = [] := fun h => hE (hcur.symm.trans h)
      simp only [finishPages, if_neg hE, if_neg hEB]
      rw [List.drop_left, hcur, hattrs]
  | cons eA tA ih =>
    intro lB stA stB hproj hcur hcurH hattrs hpnB hlen hres hpc
    cases lB with
    | nil => simp at hproj
    | cons eB tB =>
      simp only [List.map_cons, List.cons_eq_cons] at hproj
      obtain ⟨hhead, htail⟩ := hproj
      have hnode : eB.1.1 = eA.1.1 := by
        have := congrArg Prod.fst hhead; simpa using this.symm
      have hht : eB.2 = eA.2 := by
        have := congrArg Prod.snd hhead; simpa using this.symm
      rw [buildRun_cons] at hres hpc ⊢
      rw [buildRun_cons]
      by_cases hC : bo stA.attrs < stA.curH + eA.2 ∧ stA.cur ≠ []
      · have hCB : bo stB.attrs < stB.curH + eB.2 ∧ stB.cur ≠ [] := by
          rw [hattrs, hcurH, hht, hcur]
          exact ⟨hC.1, hC.2⟩
        -- first page added after the close carries the post-close attributes
        obtain ⟨c, rest, hcr⟩ := finish_first_added bo rsA pcA mh tA (buildStep bo rsA pcA mh stA eA)
          (by rw [buildStep_cur]; simp)
        have hpagesA : (buildStep bo rsA pcA mh stA eA).pages =
            stA.pages ++ [(stA.attrs, stA.cur)] := by rw [buildStep_pages, if_pos hC]
        have hlenA : (buildStep bo rsA pcA mh stA eA).pages.length = stA.pages.length + 1 := by
          rw [hpagesA]; simp
        have hidx : (finishPages (buildRun bo rsA pcA mh tA (buildStep bo rsA pcA mh stA eA)))[stA.pages.length + 1]?
            = some ((buildStep bo rsA pcA mh stA eA).attrs, c) := by
          rw [hcr, hpagesA]
          rw [show stA.pages ++ [(stA.attrs, stA.cur)] ++ ((buildStep bo rsA pcA mh stA eA).attrs, c) :: rest
              = (stA.pages ++ [(stA.attrs, stA.cur)]) ++ ((buildStep bo rsA pcA mh stA eA).attrs, c) :: rest from by simp]
          rw [List.getElem?_append_right (by simp)]
          simp
        have hattrsB : (buildStep bo rsB pcB mh stB eB).attrs = (buildStep bo rsA pcA mh stA eA).attrs := by
          rw [buildStep_attrs, if_pos hCB]
          have hin : stB.pageNum + 1 < pcB := by
            have h1 : stA.pages.length + 1 + 1 ≤
                (finishPages (buildRun bo rsA pcA mh tA (buildStep bo rsA pcA mh stA eA))).length := by
              rw [hcr, hpagesA]; simp; omega
            omega
          rw [if_pos hin, hpnB, hlen]
          exact hres (stA.pages.length + 1) _ (by omega) hidx
        have hih := ih tB (buildStep bo rsA pcA mh stA eA) (buildStep bo rsB pcB mh stB eB)
          htail
          (by rw [buildStep_cur, if_pos hCB, buildStep_cur, if_pos hC, hnode])
          (by rw [buildStep_curH, if_pos hCB, buildStep_curH, if_pos hC, hht])
          hattrsB
          (by rw [buildStep_pageNum, if_pos hCB, buildStep_pages, if_pos hCB, hpnB]; simp)
          (by rw [buildStep_pages, if_pos hCB, hpagesA]; simp [hlen])
          (fun k pg hk hpg => hres k pg (by omega) hpg)
          hpc
        rw [hih, hlenA, buildStep_pages, if_pos hCB, hcr, hpagesA]
        rw [show stA.pages.length + 1 = (stA.pages ++ [(stA.attrs, stA.cur)]).length from by simp]
        rw [List.drop_left]
        rw [show (stA.pages ++ [(stA.attrs, stA.cur)]) ++ ((buildStep bo rsA pcA mh stA eA).attrs, c) :: rest
            = stA.pages ++ ((stA.attrs, stA.cur) :: ((buildStep bo rsA pcA mh stA eA).attrs, c) :: rest) from by
          simp]
        rw [List.drop_left]
        rw [hcur, hattrs]
        simp
      · have hCB : ¬ (bo stB.attrs < stB.curH + eB.2 ∧ stB.cur ≠ []) := by
          rw [hattrs, hcurH, hht, hcur]
          exact hC
        have hih := ih tB (buildStep bo rsA pcA mh stA eA) (buildStep bo rsB pcB mh stB eB)
          htail
          (by rw [buildStep_cur, if_neg hCB, buildStep_cur, if_neg hC, hnode, hcur])
          (by rw [buildStep_curH, if_neg hCB, buildStep_curH, if_neg hC, hht, hcurH])
          (by rw [buildStep_attrs, if_neg hCB, buildStep_attrs, if_neg hC, hattrs])
          (by rw [buildStep_pageNum, if_neg hCB, buildStep_pages, if_neg hCB, hpnB])
          (by rw [buildStep_pages, if_neg hCB, buildStep_pages, if_neg hC, hlen])
          (fun k pg hk hpg => hres k pg (by rw [buildStep_pages, if_neg hC] at hk; omega) hpg)
          hpc
        rw [hih, buildStep_pages, if_neg hCB, buildStep_pages, if_neg hC]

/-- The collector page walk emits exactly the page children. -/
theorem pageChildEntries_fst : ∀ (ks : List PMNode) (p : Nat),
    (pageChildEntries ks p).map Prod.fst = ks := by
  intro ks
  induction ks with
  | nil => intro p; rfl
  | cons k t ih => intro p; simp [pageChildEntries, ih]

/-- Collecting a document made of page nodes yields their flattened
content. -/
theorem collectTop_pages_fst : ∀ (ps : List (Attrs × List PMNode)) (off : Nat),
    (collectTop (ps.map mkPageNode) off).map Prod.fst = pagesJoin ps := by
  intro ps
  induction ps with
  | nil => intro off; simp [collectTop, pagesJoin]
  | cons pr t ih =>
    intro off
    simp only [List.map_cons, collectTop, mkPageNode, nameOf, childrenOf, if_pos rfl,
      List.map_append, pageChildEntries_fst, ih]
    simp [pagesJoin, pageChildEntries_fst]

/-- The rebuilt document wraps the produced pages. -/
theorem buildNewDocument_newDoc (bo : Attrs → Int) (rs : Nat → Attrs) (pc : Nat) (mh : Int)
    (entries : List (PMNode × Nat)) (heights : List Int) :
    (buildNewDocument bo rs pc mh entries heights).newDoc =
      PMNode.node "doc" {} ((buildNewDocument bo rs pc mh entries heights).pages.map mkPageNode) := rfl

/-- The produced pages flatten to the processed entry nodes. -/
theorem build_pages_join (bo : Attrs → Int) (rs : Nat → Attrs) (pc : Nat) (mh : Int)
    (entries : List (PMNode × Nat)) (heights : List Int) :
    pagesJoin (buildNewDocument bo rs pc mh entries heights).pages =
      (entries.zip heights).map (fun e => e.1.1) := by
  rw [buildNewDocument_pages, finishPages_join, buildRun_join]
  simp [initSt, pagesJoin]

/-- Zipping either of two node-wise equal entry lists with the same
heights yields the same node / height sequence. -/
theorem zip_proj_congr : ∀ (u ent : List (PMNode × Nat)) (hs : List Int),
    u.map Prod.fst = (ent.zip hs).map (fun e => e.1.1) →
    (u.zip hs).map (fun e => (e.1.1, e.2)) = (ent.zip hs).map (fun e => (e.1.1, e.2)) := by
  intro u
  induction u with
  | nil =>
    intro ent hs hmap
    have : (ent.zip hs).map (fun e => e.1.1) = [] := hmap.symm
    have hz : ent.zip hs = [] := by simpa using this
    simp [hz]
  | cons a u ih =>
    intro ent hs hmap
    cases ent with
    | nil => simp at hmap
    | cons p ent2 =>
      cases hs with
      | nil => simp at hmap
      | cons h hs2 =>
        simp only [List.zip_cons_cons, List.map_cons, List.cons_eq_cons] at hmap ⊢
        exact ⟨by rw [hmap.1], ih ent2 hs2 hmap.2⟩

/-- C4 (confirmed): repaginating an already-paginated document is
idempotent.  Collecting the output of a `buildNewDocument` pass and
packing it again with the same heights, with the page attributes resolved
from the pages stamped by the first pass (as `getCalculatedPageNodeAttributes`
reads them from the new document) and the page count of the new document,
reproduces exactly the same page list - same number of pages, same content
(and attributes) per page. -/
theorem c4_repagination_idempotent (bo : Attrs → Int) (rsA : Nat → Attrs) (pcA : Nat) (mh : Int)
    (entries : List (PMNode × Nat)) (heights : List Int) (dflt : Attrs) :
    (buildNewDocument bo
      (fun p => (((buildNewDocument bo rsA pcA mh entries heights).pages[p]?).map Prod.fst).getD dflt)
      ((buildNewDocument bo rsA pcA mh entries heights).pages.length) mh
      (collectContentNodes (buildNewDocument bo rsA pcA mh entries heights).newDoc)
      heights).pages
    = (buildNewDocument bo rsA pcA mh entries heights).pages := by
  have hnodes : (collectContentNodes (buildNewDocument bo rsA pcA mh entries heights).newDoc).map Prod.fst
      = (entries.zip heights).map (fun e => e.1.1) := by
    rw [buildNewDocument_newDoc]
    have h1 : collectContentNodes
        (PMNode.node "doc" {} ((buildNewDocument bo rsA pcA mh entries heights).pages.map mkPageNode))
        = collectTop ((buildNewDocument bo rsA pcA mh entries heights).pages.map mkPageNode) 0 := rfl
    rw [h1, collectTop_pages_fst, build_pages_join]
  by_cases hm : (buildNewDocument bo rsA pcA mh entries heights).pages = []
  · have hz : (collectContentNodes (buildNewDocument bo rsA pcA mh entries heights).newDoc) = [] := by
      have h2 := hnodes
      rw [← build_pages_join bo rsA pcA mh entries heights, hm] at h2
      simpa [pagesJoin] using h2
    rw [hm, buildNewDocument_pages, hz]
    simp [buildRun_nil, finishPages, initSt]
  · have hattrs0 : ∀ pg0, (buildNewDocument bo rsA pcA mh entries heights).pages[0]? = some pg0 →
        pg0.1 = rsA 0 := by
      intro pg0 hpg0
      rw [buildNewDocument_pages] at hpg0
      exact finish_first_attrs_empty bo rsA pcA mh (entries.zip heights) (initSt rsA) rfl rfl pg0 hpg0
    obtain ⟨pg0, rest0, hcons⟩ : ∃ pg0 rest0,
        (buildNewDocument bo rsA pcA mh entries heights).pages = pg0 :: rest0 := by
      cases hp : (buildNewDocument bo rsA pcA mh entries heights).pages with
      | nil => exact absurd hp hm
      | cons a l => exact ⟨a, l, rfl⟩
    have hsim := buildRun_sim bo rsA
      (fun p => (((buildNewDocument bo rsA pcA mh entries heights).pages[p]?).map Prod.fst).getD dflt)
      pcA ((buildNewDocument bo rsA pcA mh entries heights).pages.length) mh
      (entries.zip heights)
      ((collectContentNodes (buildNewDocument bo rsA pcA mh entries heights).newDoc).zip heights)
      (initSt rsA)
      (initSt (fun p => (((buildNewDocument bo rsA pcA mh entries heights).pages[p]?).map Prod.fst).getD dflt))
      (zip_proj_congr _ entries heights hnodes).symm
      rfl rfl
      (by
        show (((buildNewDocument bo rsA pcA mh entries heights).pages[0]?).map Prod.fst).getD dflt = rsA 0
        rw [hcons]
        have h0 := hattrs0 pg0 (by rw [hcons]; simp)
        simpa using h0)
      rfl (by simp [initSt])
      (by
        intro k pg hk hpg
        rw [← buildNewDocument_pages] at hpg
        simp [hpg])
      (by rw [← buildNewDocument_pages])
    rw [buildNewDocument_pages, hsim, ← buildNewDocument_pages]
    simp [initSt]


/-- Witness for C1: a height-30 table between two height-5 paragraphs
under constant budget 10 lands alone on its own page. -/
theorem c1_oversized_entry_alone_witness :
    ∃ P1 P2,
      (buildNewDocument budgetC resolverC 1 0
          ([(emptyPara, 1)] ++ (tableC1, 3) :: [(emptyPara, 5)]) ([5] ++ 30 :: [5])).pages.map Prod.snd
        = P1 ++ [tableC1] :: P2 ∧
      P1.flatten = [emptyPara] ∧ P2.flatten = [emptyPara] := by
  have h := c1_oversized_entry_alone budgetC resolverC 1 0 [(emptyPara, 1)] [(emptyPara, 5)]
    (tableC1, 3) [5] [5] 30 (by decide) (by decide) (by decide) (by decide)
    (fun p => by unfold budgetC resolverC; decide)
  simpa using h

end TiptapPagination
